import Mathlib

/-!
Verification development for the `warren` repository (a WAM-style abstract
machine for first-order term unification).

The definitions below are a shallow embedding of `src/machine/src/*.rs`:
  * `Cell`, `Storage` and its operations follow `storage.rs`;
  * `Program`, its decoder and `ProgramBuilder` follow `program.rs`;
  * `Operation` follows `operation.rs` together with the decoder arms of
    `program.rs` (the checked-in `operation.rs` is a stale draft that lists
    only the three put/set variants; the other three variants and their
    strides are fixed by the decoder in `program.rs` and their use in
    `machine.rs`);
  * `Machine`, its instruction semantics and the execution loop follow
    `machine.rs`;
  * the query/statement builders follow `query.rs` and `statement.rs`.

Rust `usize` values are modelled as `Nat` (no arithmetic in the sources can
overflow a 64-bit machine word on the inputs considered, and all index
arithmetic is pure addition).  Rust loops that have no structural bound
(`Storage::deref_idx`, `Storage::unify`, the recursion of
`Machine::build_term`) are modelled with an explicit fuel argument; fuel
exhaustion is distinguished from an ordinary result, so a diverging Rust
loop corresponds to fuel exhaustion at every fuel.  A Rust out-of-bounds
index panic is modelled as `none` (abort) wherever the sources index a
vector without `get`.
-/

/-- One tagged cell of the store (`storage.rs`, `enum Cell`).  The source has
exactly three variants; there is no `Empty` variant. -/
inductive Cell where
  | Ref : Nat → Cell
  | Struct : Nat → Cell
  | Funct : Nat → Nat → Cell
deriving DecidableEq, Repr

/-- `impl Default for Cell` returns `Ref(0)` (`storage.rs`). -/
def Cell.defaultCell : Cell := Cell.Ref 0

/-- `Cell::to_funct` (`storage.rs`). -/
def Cell.to_funct : Cell → Option (Nat × Nat)
  | Cell.Funct f n => some (f, n)
  | _ => none

/-- The address space of the machine (`storage.rs`, `struct Storage`):
a flat vector of cells, the first `regs` of which are the X registers. -/
structure Storage where
  store : List Cell
  regs : Nat
deriving DecidableEq, Repr

/-- `Storage::new` (`storage.rs`). -/
def Storage.new : Storage := { store := [], regs := 0 }

/-- `Storage::reset` (`storage.rs`): `self.regs = regs;
self.store.resize_with(regs, Default::default)`.  `resize_with` keeps the
first `min(len, regs)` existing cells and fills the rest with the default
cell `Ref(0)`. -/
def Storage.reset (s : Storage) (regs : Nat) : Storage :=
  { regs := regs
    store := s.store.take regs ++ List.replicate (regs - s.store.length) Cell.defaultCell }

/-- `Storage::registers` (`storage.rs`): the slice `store[0..regs]`. -/
def Storage.registers (s : Storage) : List Cell := s.store.take s.regs

/-- `Storage::push_struct` (`storage.rs`): append `Struct(len+1)` and
`Funct(ident, arity)`, return the appended `Struct` cell. -/
def Storage.push_struct (s : Storage) (ident arity : Nat) : Storage × Cell :=
  ({ s with store := s.store ++ [Cell.Struct (s.store.length + 1), Cell.Funct ident arity] },
   Cell.Struct (s.store.length + 1))

/-- `Storage::push_var` (`storage.rs`): append a self-referential `Ref`. -/
def Storage.push_var (s : Storage) : Storage × Cell :=
  ({ s with store := s.store ++ [Cell.Ref s.store.length] }, Cell.Ref s.store.length)

/-- `Storage::push_cell` (`storage.rs`). -/
def Storage.push_cell (s : Storage) (c : Cell) : Storage × Cell :=
  ({ s with store := s.store ++ [c] }, c)

/-- `Storage::deref_idx` (`storage.rs`), with fuel.  The Rust loop
`while let Cell::Ref(a) = self.store.get(addr)?` is unbounded; the fuel
makes it total.  Results: `none` = fuel exhausted (the Rust loop has not
finished within `fuel` iterations; it diverges exactly when this holds for
every fuel); `some none` = the Rust function returns `None` (an address in
the chain was out of bounds); `some (some t)` = the Rust function returns
`Some(t)`. -/
def derefIdxF : Nat → Storage → Nat → Option (Option Nat)
  | 0, _, _ => none
  | fuel + 1, s, addr =>
    match s.store[addr]? with
    | none => some none
    | some (Cell.Ref a) => if a = addr then some (some a) else derefIdxF fuel s a
    | some _ => some (some addr)

/-- `a` dereferences to the terminal address `t` (the Rust
`deref_idx(a) == Some(t)`, i.e. the loop terminates with `Some(t)`). -/
def DerefTerm (s : Storage) (a t : Nat) : Prop :=
  ∃ n, derefIdxF n s a = some (some t)

/-- `Storage::bind` (`storage.rs`).  The Rust function indexes
`self.store[a1]` and `self.store[a2]` directly and therefore panics on an
out-of-bounds address; this total model behaves like the in-bounds cases
(see `Storage.bindChecked` for the panic-aware wrapper). -/
def Storage.isFreeAt (s : Storage) (a : Nat) : Bool :=
  match s.store[a]? with
  | some (Cell.Ref r) => r == a
  | _ => false

/-- The cell-rewriting core of `Storage::bind`: if `store[a1]` is a self
reference overwrite it with `Ref(a2)`, else if `store[a2]` is a self
reference overwrite it with `Ref(a1)`, else do nothing. -/
def Storage.bind (s : Storage) (a1 a2 : Nat) : Storage :=
  if s.isFreeAt a1 then { s with store := s.store.set a1 (Cell.Ref a2) }
  else if s.isFreeAt a2 then { s with store := s.store.set a2 (Cell.Ref a1) }
  else s

/-- `Storage::bind` with the Rust indexing panic made explicit: the source
evaluates `self.store[a1]` and `self.store[a2]`, which aborts (panics) when
either address is out of bounds. -/
def Storage.bindChecked (s : Storage) (a1 a2 : Nat) : Option Storage :=
  if a1 < s.store.length ∧ a2 < s.store.length then some (s.bind a1 a2) else none

/-- The pairs `(v1+i, v2+i)` for `i = 1..=n` as pushed by `Storage::unify`
onto its work stack (Rust pushes `i = 1` first, so `i = n` ends on top;
here the head of the list is the top of the stack). -/
def pushPairs (v1 v2 n : Nat) : List (Nat × Nat) :=
  (List.range n).map fun i => (v1 + n - i, v2 + n - i)

/-- `Storage::unify` (`storage.rs`), with fuel: an iterative Robinson-style
unification over an explicit work stack (head = top of stack).  `none` =
fuel exhausted (the Rust loop is still running after `fuel` iterations; the
Rust function diverges exactly when this holds for every fuel);
`some (ok, s')` = the Rust function returns `ok` leaving the store `s'`
(bindings made before a failure are kept, as in the source).  The inner
dereferences reuse the current fuel; by `derefIdxF` monotonicity any
terminating Rust run is reproduced exactly for every sufficiently large
fuel.  The first dereference is
performed (and may diverge or fail) before the second, as in the source;
the `some (false, s)` arms guarded by an impossible cell lookup are
unreachable because a successful dereference always lands in bounds. -/
def unifyF : Nat → Storage → List (Nat × Nat) → Option (Bool × Storage)
  | 0, _, _ => none
  | _ + 1, s, [] => some (true, s)
  | fuel + 1, s, (p1, p2) :: pld =>
    match derefIdxF (fuel + 1) s p1 with
    | none => none
    | some none => some (false, s)
    | some (some d1) =>
      match derefIdxF (fuel + 1) s p2 with
      | none => none
      | some none => some (false, s)
      | some (some d2) =>
        if d1 = d2 then unifyF fuel s pld
        else
          match s.store[d1]?, s.store[d2]? with
          | some c1, some c2 =>
            match c1, c2 with
            | Cell.Ref _, _ => unifyF fuel (s.bind d1 d2) pld
            | _, Cell.Ref _ => unifyF fuel (s.bind d1 d2) pld
            | Cell.Struct v1, Cell.Struct v2 =>
              match Option.bind s.store[v1]? Cell.to_funct,
                    Option.bind s.store[v2]? Cell.to_funct with
              | some (f1, n1), some (f2, n2) =>
                if f1 = f2 ∧ n1 = n2 then unifyF fuel s (pushPairs v1 v2 n1 ++ pld)
                else some (false, s)
              | _, _ => some (false, s)
            | _, _ => some (false, s)
          | _, _ => some (false, s)

/-- The machine instruction set (`operation.rs` plus the three get/unify
variants it uses in `machine.rs`; operand shapes per the decoder in
`program.rs`). -/
inductive Operation where
  | PutStructure : Nat → Nat → Nat → Operation
  | SetVariable : Nat → Operation
  | SetValue : Nat → Operation
  | GetStructure : Nat → Nat → Nat → Operation
  | UnifyVariable : Nat → Operation
  | UnifyValue : Nat → Operation
deriving DecidableEq, Repr

/-- `Operation::advance` (`operation.rs`): machine words to advance after
execution; equal to the instruction's word length (opcode word plus one
word per operand), matching the operand slots read by the decoder in
`program.rs`. -/
def Operation.advance : Operation → Nat
  | Operation.PutStructure _ _ _ => 4
  | Operation.SetVariable _ => 2
  | Operation.SetValue _ => 2
  | Operation.GetStructure _ _ _ => 4
  | Operation.UnifyVariable _ => 2
  | Operation.UnifyValue _ => 2

/-- Immutable bytecode buffer (`program.rs`, `struct Program`): a flat list
of machine words plus the register requirement recorded by the builder. -/
structure Program where
  program : List Nat
  xregs : Nat
deriving DecidableEq, Repr

/-- `Program::x_registers` (`program.rs`). -/
def Program.x_registers (p : Program) : Nat := p.xregs

/-- Decoder arm `Program::put_structure` (`program.rs`): requires
`program.len() > index + 3` and reads the three operand words. -/
def Program.put_structure (p : Program) (index : Nat) : Option Operation :=
  if index + 3 < p.program.length then
    some (Operation.PutStructure (p.program.getD (index + 1) 0)
      (p.program.getD (index + 2) 0) (p.program.getD (index + 3) 0))
  else none

/-- Decoder arm `Program::set_variable` (`program.rs`). -/
def Program.set_variable (p : Program) (index : Nat) : Option Operation :=
  if index + 1 < p.program.length then
    some (Operation.SetVariable (p.program.getD (index + 1) 0))
  else none

/-- Decoder arm `Program::set_value` (`program.rs`). -/
def Program.set_value (p : Program) (index : Nat) : Option Operation :=
  if index + 1 < p.program.length then
    some (Operation.SetValue (p.program.getD (index + 1) 0))
  else none

/-- Decoder arm `Program::get_structure` (`program.rs`). -/
def Program.get_structure (p : Program) (index : Nat) : Option Operation :=
  if index + 3 < p.program.length then
    some (Operation.GetStructure (p.program.getD (index + 1) 0)
      (p.program.getD (index + 2) 0) (p.program.getD (index + 3) 0))
  else none

/-- Decoder arm `Program::unify_variable` (`program.rs`). -/
def Program.unify_variable (p : Program) (index : Nat) : Option Operation :=
  if index + 1 < p.program.length then
    some (Operation.UnifyVariable (p.program.getD (index + 1) 0))
  else none

/-- Decoder arm `Program::unify_value` (`program.rs`). -/
def Program.unify_value (p : Program) (index : Nat) : Option Operation :=
  if index + 1 < p.program.length then
    some (Operation.UnifyValue (p.program.getD (index + 1) 0))
  else none

/-- `Program::operation` (`program.rs`): decode the instruction at `index`.
Opcode values follow `#[repr(usize)] enum OpCode`: PutStructure = 0,
SetVariable = 1, SetValue = 2, GetStructure = 3, UnifyVariable = 4,
UnifyValue = 5.  Any other word, or a truncated instruction, yields
`none`. -/
def Program.operation (p : Program) (index : Nat) : Option Operation :=
  match p.program[index]? with
  | none => none
  | some w =>
    if w = 0 then p.put_structure index
    else if w = 1 then p.set_variable index
    else if w = 2 then p.set_value index
    else if w = 3 then p.get_structure index
    else if w = 4 then p.unify_variable index
    else if w = 5 then p.unify_value index
    else none

/-- `struct ProgramBuilder` (`program.rs`). -/
structure ProgramBuilder where
  program : List Nat
  xregs : Nat
deriving DecidableEq, Repr

/-- `impl Default for ProgramBuilder` (`program.rs`). -/
def ProgramBuilder.empty : ProgramBuilder := { program := [], xregs := 0 }

/-- `ProgramBuilder::put_structure` (`program.rs`): records
`xregs = max(xregs, xreg + 1)` and appends the four instruction words. -/
def ProgramBuilder.put_structure (b : ProgramBuilder) (ident arity xreg : Nat) : ProgramBuilder :=
  { program := b.program ++ [0, ident, arity, xreg], xregs := max b.xregs (xreg + 1) }

/-- `ProgramBuilder::set_variable` (`program.rs`). -/
def ProgramBuilder.set_variable (b : ProgramBuilder) (xreg : Nat) : ProgramBuilder :=
  { program := b.program ++ [1, xreg], xregs := max b.xregs (xreg + 1) }

/-- `ProgramBuilder::set_value` (`program.rs`). -/
def ProgramBuilder.set_value (b : ProgramBuilder) (xreg : Nat) : ProgramBuilder :=
  { program := b.program ++ [2, xreg], xregs := max b.xregs (xreg + 1) }

/-- `ProgramBuilder::get_structure` (`program.rs`).  Note: unlike the three
put/set builders above, the source does NOT update `xregs` here. -/
def ProgramBuilder.get_structure (b : ProgramBuilder) (ident arity xreg : Nat) : ProgramBuilder :=
  { program := b.program ++ [3, ident, arity, xreg], xregs := b.xregs }

/-- `ProgramBuilder::unify_variable` (`program.rs`); does not update
`xregs` (as in the source). -/
def ProgramBuilder.unify_variable (b : ProgramBuilder) (xreg : Nat) : ProgramBuilder :=
  { program := b.program ++ [4, xreg], xregs := b.xregs }

/-- `ProgramBuilder::unify_value` (`program.rs`); does not update `xregs`
(as in the source). -/
def ProgramBuilder.unify_value (b : ProgramBuilder) (xreg : Nat) : ProgramBuilder :=
  { program := b.program ++ [5, xreg], xregs := b.xregs }

/-- `ProgramBuilder::build` (`program.rs`). -/
def ProgramBuilder.build (b : ProgramBuilder) : Program :=
  { program := b.program, xregs := b.xregs }

/-- The instruction's word encoding as pushed by the corresponding
`ProgramBuilder` method. -/
def encodeOp : Operation → List Nat
  | Operation.PutStructure ident arity xreg => [0, ident, arity, xreg]
  | Operation.SetVariable xreg => [1, xreg]
  | Operation.SetValue xreg => [2, xreg]
  | Operation.GetStructure ident arity xreg => [3, ident, arity, xreg]
  | Operation.UnifyVariable xreg => [4, xreg]
  | Operation.UnifyValue xreg => [5, xreg]

/-- Word encoding of an instruction sequence. -/
def encodeOps : List Operation → List Nat
  | [] => []
  | op :: rest => encodeOp op ++ encodeOps rest

/-- `enum UnificationState` (`machine.rs`). -/
inductive UnificationState where
  | Read : UnificationState
  | Write : UnificationState
deriving DecidableEq, Repr

/-- `struct Machine` (`machine.rs`): storage, instruction pointer,
S register and the read/write unification state. -/
structure Machine where
  storage : Storage
  preg : Nat
  sreg : Nat
  unification_state : UnificationState
deriving DecidableEq, Repr

/-- `Machine::new` / `impl Default for Machine` (`machine.rs`). -/
def Machine.new : Machine :=
  { storage := Storage.new, preg := 0, sreg := 0, unification_state := UnificationState.Read }

/-- Write `store[a] := c` with the Rust indexing panic made explicit
(`self.storage[a] = ...` panics when `a` is out of bounds). -/
def Storage.writeChecked (s : Storage) (a : Nat) (c : Cell) : Option Storage :=
  if a < s.store.length then some { s with store := s.store.set a c } else none

/-- `Machine::put_structure` (`machine.rs`): push the structure, then
`self.storage[xreg] = cell` (a panic when `xreg` is out of bounds after the
two pushes); always reports `true`. -/
def Machine.put_structure (m : Machine) (ident arity xreg : Nat) : Option (Machine × Bool) :=
  let (s1, cell) := m.storage.push_struct ident arity
  match s1.writeChecked xreg cell with
  | some s2 => some ({ m with storage := s2 }, true)
  | none => none

/-- `Machine::set_variable` (`machine.rs`). -/
def Machine.set_variable (m : Machine) (xreg : Nat) : Option (Machine × Bool) :=
  let (s1, cell) := m.storage.push_var
  match s1.writeChecked xreg cell with
  | some s2 => some ({ m with storage := s2 }, true)
  | none => none

/-- `Machine::set_value` (`machine.rs`): `push_cell(self.storage[xreg])`
(the read panics when `xreg` is out of bounds). -/
def Machine.set_value (m : Machine) (xreg : Nat) : Option (Machine × Bool) :=
  match m.storage.store[xreg]? with
  | some c => some ({ m with storage := (m.storage.push_cell c).1 }, true)
  | none => none

/-- `Machine::get_structure` (`machine.rs`), with deref fuel `df`.
`none` is a non-returning execution: either the dereference loop ran out of
fuel (Rust diverges) or the source indexed `self.storage[a]` out of bounds
(Rust panics). -/
def Machine.get_structure (df : Nat) (m : Machine) (ident arity xreg : Nat) :
    Option (Machine × Bool) :=
  match derefIdxF df m.storage xreg with
  | none => none
  | some none => some (m, false)
  | some (some t) =>
    match m.storage.store[t]? with
    | some (Cell.Ref r) =>
      let idx := m.storage.store.length
      let s1 := (m.storage.push_struct ident arity).1
      some ({ m with storage := s1.bind r idx, unification_state := UnificationState.Write }, true)
    | some (Cell.Struct a) =>
      match m.storage.store[a]? with
      | some c =>
        if c = Cell.Funct ident arity then
          some ({ m with sreg := a + 1, unification_state := UnificationState.Read }, true)
        else some (m, false)
      | none => none
    | some _ => some (m, false)
    | none => some (m, false)

/-- `Machine::unify_variable` (`machine.rs`): in read mode
`self.storage[xreg] = self.storage[self.sreg]` (either index may panic); in
write mode push a fresh variable and store it in `xreg`; then `sreg += 1`;
always reports `true`. -/
def Machine.unify_variable (m : Machine) (xreg : Nat) : Option (Machine × Bool) :=
  match m.unification_state with
  | UnificationState.Read =>
    match m.storage.store[m.sreg]? with
    | some c =>
      match m.storage.writeChecked xreg c with
      | some s2 => some ({ m with storage := s2, sreg := m.sreg + 1 }, true)
      | none => none
    | none => none
  | UnificationState.Write =>
    let (s1, cell) := m.storage.push_var
    match s1.writeChecked xreg cell with
    | some s2 => some ({ m with storage := s2, sreg := m.sreg + 1 }, true)
    | none => none

/-- `Machine::unify_value` (`machine.rs`): in read mode run
`self.storage.unify(xreg, self.sreg)` and DISCARD its result (the source
ignores the returned boolean); in write mode `push_cell(self.storage[xreg])`
(the read panics when out of bounds); then `sreg += 1`; always reports
`true`. -/
def Machine.unify_value (df : Nat) (m : Machine) (xreg : Nat) : Option (Machine × Bool) :=
  match m.unification_state with
  | UnificationState.Read =>
    match unifyF df m.storage [(xreg, m.sreg)] with
    | some (_, s1) => some ({ m with storage := s1, sreg := m.sreg + 1 }, true)
    | none => none
  | UnificationState.Write =>
    match m.storage.store[xreg]? with
    | some c => some ({ m with storage := (m.storage.push_cell c).1, sreg := m.sreg + 1 }, true)
    | none => none

/-- `Machine::perform_op` (`machine.rs`): dispatch the instruction, then
advance `preg` by `op.advance()` (the source adds the stride regardless of
the reported success value). -/
def Machine.perform_op (df : Nat) (m : Machine) (op : Operation) : Option (Machine × Bool) :=
  let res :=
    match op with
    | Operation.PutStructure ident arity xreg => m.put_structure ident arity xreg
    | Operation.SetVariable xreg => m.set_variable xreg
    | Operation.SetValue xreg => m.set_value xreg
    | Operation.GetStructure ident arity xreg => Machine.get_structure df m ident arity xreg
    | Operation.UnifyVariable xreg => m.unify_variable xreg
    | Operation.UnifyValue xreg => Machine.unify_value df m xreg
  match res with
  | some (m1, b) => some ({ m1 with preg := m.preg + op.advance }, b)
  | none => none

/-- The body of `Machine::run` (`machine.rs`):
`while let Some(op) = program.operation(self.preg) { self.perform_op(op); }`.
The loop DISCARDS the success value of `perform_op` and keeps executing.
`fuel` bounds the number of loop iterations (the loop is in fact finite
because `preg` strictly increases, see the run-termination theorem);
`df` is the fuel handed to the dereference/unify loops inside a step. -/
def Machine.runF (df : Nat) : Nat → Machine → Program → Option Machine
  | 0, _, _ => none
  | fuel + 1, m, p =>
    match p.operation m.preg with
    | none => some m
    | some op =>
      match m.perform_op df op with
      | none => none
      | some (m1, _) => Machine.runF df fuel m1 p

/-- `Machine::run` (`machine.rs`): reset `preg` to 0 and run the loop.
`program.length + 1` iterations always suffice because every instruction
advances `preg` by at least 2. -/
def Machine.run (df : Nat) (m : Machine) (p : Program) : Option Machine :=
  Machine.runF df (p.program.length + 1) { m with preg := 0 } p

/-- A compiled query (`query.rs`, `struct Query`, together with the
`top_level` field read by `Machine::query` in `machine.rs`).

Modelled from the spec: the checked-in `query.rs` draft omits the
`top_level` field that `machine.rs` dereferences (`query.top_level`); per
the spec a Query carries "a `top_level` handle identifying the register
into which the root cell will be materialized", set by `build(root)` from
the root handle. -/
structure Query where
  program : Program
  top_level : Nat

/-- `Knowledge::x_registers` (`knowledge.rs`): maximum over the contained
programs, or 0 when empty.  Knowledge is its ordered list of programs. -/
def knowledgeXRegisters (k : List Program) : Nat :=
  k.foldr (fun p acc => max p.x_registers acc) 0

/-- Running the fact programs selected by `Machine::query`
(`for fact in knowledge.programs().take(1)`, `machine.rs`). -/
def Machine.runFacts (df : Nat) : Machine → List Program → Option Machine
  | m, [] => some m
  | m, p :: rest =>
    match m.run df p with
    | some m1 => Machine.runFacts df m1 rest
    | none => none

/-- `Machine::query` (`machine.rs`): size the store from the query and the
knowledge, reset, run the query program, copy the top-level register to
register 0 when it is not already 0 (direct indexing, panics modelled by
`none`), run the first fact program only (`take(1)`), and snapshot the
first `x_registers` register cells. -/
def Machine.query (df : Nat) (m : Machine) (q : Query) (k : List Program) :
    Option (Machine × List Cell) :=
  let regs := max q.program.x_registers (knowledgeXRegisters k)
  let m0 := { m with storage := m.storage.reset regs }
  match m0.run df q.program with
  | none => none
  | some m1 =>
    let copied :=
      if q.top_level ≠ 0 then
        match m1.storage.store[q.top_level]? with
        | some c =>
          match m1.storage.writeChecked 0 c with
          | some s2 => some { m1 with storage := s2 }
          | none => none
        | none => none
      else some m1
    match copied with
    | none => none
    | some m2 =>
      match Machine.runFacts df m2 (k.take 1) with
      | none => none
      | some m3 => some (m3, m3.storage.registers.take q.program.x_registers)

/-- `struct QueryBuilder` (`query.rs`): a `ProgramBuilder` plus the
monotone register counter (register 0 is reserved for the top level, so the
counter starts at 1). -/
structure QueryBuilder where
  program : ProgramBuilder
  next_register : Nat

/-- `QueryBuilder::new` (`query.rs`). -/
def QueryBuilder.new : QueryBuilder := { program := ProgramBuilder.empty, next_register := 1 }

/-- `QueryBuilder::variable` (`query.rs`): allocate the next register and
emit `SetVariable`, returning the register handle. -/
def QueryBuilder.variable (b : QueryBuilder) : QueryBuilder × Nat :=
  ({ program := b.program.set_variable b.next_register,
     next_register := b.next_register + 1 }, b.next_register)

/-- `QueryBuilder::structure` (`query.rs`): allocate the next register,
emit `PutStructure(ident, |subterms|, register)` followed by one `SetValue`
per subterm handle, returning the register handle. -/
def QueryBuilder.structure (b : QueryBuilder) (ident : Nat) (subterms : List Nat) :
    QueryBuilder × Nat :=
  let register := b.next_register
  let pb := b.program.put_structure ident subterms.length register
  let pb := subterms.foldl (fun acc r => acc.set_value r) pb
  ({ program := pb, next_register := register + 1 }, register)

/-- `QueryBuilder::build` (`query.rs`), taking the root handle as the repl
caller does (`context.rs`: `builder.build(term)`).

Modelled from the spec: the checked-in `query.rs` draft takes no root
argument and builds a `Query` without the `top_level` field; per the spec
"`build(root)` finalizes a Query referencing `root` as `top_level`". -/
def QueryBuilder.buildQuery (b : QueryBuilder) (root : Nat) : Query :=
  { program := b.program.build, top_level := root }

/-- `enum RegisterAllocation` (`statement.rs`). -/
inductive RegisterAllocation where
  | Var : RegisterAllocation
  | Struct : Nat → List Nat → RegisterAllocation
deriving DecidableEq, Repr

/-- Swap two positions of a list (`self.registers.swap(0, r)` in
`StatementBuilder::build`). -/
def listSwap (l : List RegisterAllocation) (i j : Nat) : List RegisterAllocation :=
  match l[i]?, l[j]? with
  | some a, some b => (l.set i b).set j a
  | _, _ => l

/-- One child of a structure allocation as handled by the inner `for` loop
of `StatementBuilder::build`: emit `UnifyValue` for an already visited
register, otherwise `UnifyVariable` and mark it visited; push the child
onto the work stack (head of the list = top of the stack). -/
def stmtChild (acc : ProgramBuilder × List Bool × List Nat) (i : Nat) :
    ProgramBuilder × List Bool × List Nat :=
  let (pb, visited, stk) := acc
  if visited.getD i false then (pb.unify_value i, visited, i :: stk)
  else (pb.unify_variable i, visited.set i true, i :: stk)

/-- The `while let Some(reg) = stack.pop()` loop of
`StatementBuilder::build` (`statement.rs`), with fuel.  For allocation
vectors produced through the builder API the child indices of every
structure are strictly below the index holding it (after the swap the root
sits at 0 with the same children), so the loop terminates; fuel exhaustion
returns the builder accumulated so far.  A popped index without an
allocation (out of bounds, a panic in Rust) is skipped; it cannot occur for
builder-produced inputs. -/
def stmtLoop : Nat → List RegisterAllocation → List Nat → List Bool → ProgramBuilder →
    ProgramBuilder
  | 0, _, _, _, pb => pb
  | _ + 1, _, [], _, pb => pb
  | fuel + 1, regs, reg :: rest, visited, pb =>
    match regs[reg]? with
    | some (RegisterAllocation.Struct ident st) =>
      let pb1 := pb.get_structure ident st.length reg
      let (pb2, visited2, stack2) := st.foldl stmtChild (pb1, visited, rest)
      stmtLoop fuel regs stack2 visited2 pb2
    | _ => stmtLoop fuel regs rest visited pb

/-- `StatementBuilder::build` (`statement.rs`): swap the root to register
0, then flatten with the work-stack loop; the built statement is the built
program.  The fuel bounds the loop iterations; for builder-produced
allocation vectors (child indices strictly decreasing) the unfolding has at
most `(len + total children + 2) ^ (len + 1)` nodes. -/
def StatementBuilder.build (registers : List RegisterAllocation) (r : Nat) : Program :=
  let registers := listSwap registers 0 r
  let total := registers.foldr
    (fun a acc => match a with
      | RegisterAllocation.Var => acc
      | RegisterAllocation.Struct _ st => acc + st.length) 0
  (stmtLoop ((registers.length + total + 2) ^ (registers.length + 1)) registers [0]
    (List.replicate registers.length false) ProgramBuilder.empty).build

mutual
/-- Ground terms (no variables): the term language of the round-trip
property, a functor identifier applied to a list of ground subterms.
`GTermList` is the mutually defined list type. -/
inductive GTerm where
  | mk : Nat → GTermList → GTerm
inductive GTermList where
  | nil : GTermList
  | cons : GTerm → GTermList → GTermList
end

/-- Length of a `GTermList`. -/
def GTermList.length : GTermList → Nat
  | GTermList.nil => 0
  | GTermList.cons _ ts => ts.length + 1

mutual
/-- Compiling a ground term through the `QueryBuilder` API exactly as the
repl front end does (`context.rs`, `build_query_ref`, restricted to the
`Term::Const`/`Term::Struct` arms): compile the subterms left to right,
then call `QueryBuilder::structure` with their handles (`constant` is
`structure` with no subterms). -/
def compileTerm : GTerm → QueryBuilder → QueryBuilder × Nat
  | GTerm.mk ident args, b =>
    let (b1, regs) := compileArgs args b
    QueryBuilder.structure b1 ident regs
def compileArgs : GTermList → QueryBuilder → QueryBuilder × List Nat
  | GTermList.nil, b => (b, [])
  | GTermList.cons t ts, b =>
    let (b1, r) := compileTerm t b
    let (b2, rs) := compileArgs ts b1
    (b2, r :: rs)
end

/-- The compiled query of a ground term: compile from a fresh builder and
finalize with the root handle. -/
def queryOf (t : GTerm) : Query :=
  let (b, r) := compileTerm t QueryBuilder.new
  b.buildQuery r

mutual
/-- Instruction-level image of `compileTerm`: the emitted instruction list,
the root register and the next free register, as a function of the next
free register only (specification used to reason about the word stream the
builder pushes). -/
def opsT : GTerm → Nat → List Operation × Nat × Nat
  | GTerm.mk ident args, next =>
    let (lops, rs, next1) := opsL args next
    (lops ++ Operation.PutStructure ident rs.length next1 :: rs.map Operation.SetValue,
     next1, next1 + 1)
def opsL : GTermList → Nat → List Operation × List Nat × Nat
  | GTermList.nil, next => ([], [], next)
  | GTermList.cons t ts, next =>
    let (ops1, r, next1) := opsT t next
    let (ops2, rs, next2) := opsL ts next1
    (ops1 ++ ops2, r :: rs, next2)
end

/-- Reified terms as produced through the `TermBuilder` visitor
(`term_builder.rs`): a variable carries the terminal self-reference
address, a structure carries the functor identifier and its reified
subterms; a constant is a structure with no subterms (the default
`TermBuilder::constant` delegates to `structure` with an empty iterator). -/
inductive RTerm where
  | var : Nat → RTerm
  | struct : Nat → List RTerm → RTerm

mutual
/-- `Machine::build_term` (`term_builder.rs`), with fuel for the recursion
(the Rust recursion is unbounded on cyclic heaps).  A `Ref` cell is
dereferenced (`deref(idx)?`; `None` propagates); a terminal self-reference
reifies as a variable named by its address, any other terminal cell is
reified recursively.  A `Struct` cell reads its functor with `get(idx)?`;
arity 0 reifies as a constant, otherwise the slice
`storage[idx+1..=idx+arity]` is reified element-wise (the slice panics when
it runs past the end; that case also yields `none` here).  A `Funct` root
is not a term.  `buildTermsF` reifies a list of cells, failing when any
element fails. -/
def buildTermF : Nat → Storage → Cell → Option RTerm
  | 0, _, _ => none
  | fuel + 1, s, Cell.Ref i =>
    match derefIdxF (fuel + 1) s i with
    | some (some t) =>
      match s.store[t]? with
      | some (Cell.Ref j) => some (RTerm.var j)
      | some c => buildTermF fuel s c
      | none => none
    | _ => none
  | fuel + 1, s, Cell.Struct i =>
    match s.store[i]? with
    | some (Cell.Funct ident arity) =>
      if arity = 0 then some (RTerm.struct ident [])
      else if i + arity < s.store.length then
        match buildTermsF fuel s ((List.range arity).map fun j => s.store.getD (i + 1 + j) Cell.defaultCell) with
        | some subs => some (RTerm.struct ident subs)
        | none => none
      else none
    | _ => none
  | _ + 1, _, Cell.Funct _ _ => none
def buildTermsF : Nat → Storage → List Cell → Option (List RTerm)
  | 0, _, _ => none
  | _ + 1, _, [] => some []
  | fuel + 1, s, c :: cs =>
    match buildTermF fuel s c, buildTermsF fuel s cs with
    | some t, some ts => some (t :: ts)
    | _, _ => none
end

/-- `QueryResult::build_term` (`query.rs`): look up the snapshot register
cell (`self.regs.get(qref)?`) and reify it against the machine's storage. -/
def queryResultBuildTerm (fuel : Nat) (m : Machine) (regsSnapshot : List Cell) (qref : Nat) :
    Option RTerm :=
  match regsSnapshot[qref]? with
  | some c => buildTermF fuel m.storage c
  | none => none

mutual
/-- Embedding of ground terms into reified terms: a ground term reifies to
the structure with the same identifier and embedded subterms. -/
def embedT : GTerm → RTerm
  | GTerm.mk ident args => RTerm.struct ident (embedL args)
def embedL : GTermList → List RTerm
  | GTermList.nil => []
  | GTermList.cons t ts => embedT t :: embedL ts
end

/-- Sequential execution of a decoded instruction list: exactly what
`Machine::run` does on a program whose word stream encodes the list (see
the run/decode bridge theorem), with the success flag discarded as in the
source loop. -/
def execList (df : Nat) : List Operation → Machine → Option Machine
  | [], m => some m
  | op :: rest, m =>
    match m.perform_op df op with
    | none => none
    | some (m1, _) => execList df rest m1

/-- A well-formed store for unification: dereferencing terminates
successfully from every in-bounds address (no dangling reference chains and
no reference cycles). -/
def WFStore (s : Storage) : Prop :=
  ∀ a, a < s.store.length → ∃ t, DerefTerm s a t

/-- Invariant I1 of the spec: every `Struct(v)` cell points at a `Funct`
header whose `n` argument slots are in bounds. -/
def StructInv (s : Storage) : Prop :=
  ∀ (a v : Nat), s.store[a]? = some (Cell.Struct v) →
    ∃ f n, s.store[v]? = some (Cell.Funct f n) ∧ v + n < s.store.length

/-- Invariant I4 of the spec: the reference chains are acyclic except for
the self-loop at a free variable, expressed by a ranking function that
strictly decreases along every non-self `Ref` edge. -/
def RankedRefs (s : Storage) : Prop :=
  ∃ rank : Nat → Nat, ∀ (a b : Nat), s.store[a]? = some (Cell.Ref b) → b ≠ a → rank b < rank a

/-- Store evolution along `bind`/`unify`: the length is unchanged and every
cell that is not a free variable (not a self-reference) keeps its value.
Only free-variable cells are ever overwritten. -/
def Extends (s s' : Storage) : Prop :=
  s'.store.length = s.store.length ∧
  ∀ (a : Nat) (c : Cell), s.store[a]? = some c → c ≠ Cell.Ref a → s'.store[a]? = some c

/-- Equality of the terms denoted by two addresses: either both dereference
to the same terminal address, or both dereference to structure cells with
the same functor and recursively equal argument slots. -/
inductive CellEq (s : Storage) : Nat → Nat → Prop where
  | refl : ∀ a1 a2 t, DerefTerm s a1 t → DerefTerm s a2 t → CellEq s a1 a2
  | struct : ∀ a1 a2 t1 t2 v1 v2 f n,
      DerefTerm s a1 t1 → DerefTerm s a2 t2 →
      s.store[t1]? = some (Cell.Struct v1) → s.store[t2]? = some (Cell.Struct v2) →
      s.store[v1]? = some (Cell.Funct f n) → s.store[v2]? = some (Cell.Funct f n) →
      (∀ i, 1 ≤ i → i ≤ n → CellEq s (v1 + i) (v2 + i)) →
      CellEq s a1 a2

mutual
/-- The cell `c` of storage `s` denotes exactly the ground term `t`, with
every address involved at or above the heap boundary `lo`: `c` is a
`Struct` pointer to a `Funct` header of the term's identifier and arity,
and the argument slots directly following the header denote the subterms.
This is the invariant the query compiler establishes; it is stable under
register writes (below `lo`) and heap appends. -/
inductive Reifies (s : Storage) (lo : Nat) : Cell → GTerm → Prop where
  | struct : ∀ a ident args,
      lo ≤ a →
      s.store[a]? = some (Cell.Funct ident args.length) →
      ReifiesAt s lo (a + 1) args →
      Reifies s lo (Cell.Struct a) (GTerm.mk ident args)
/-- The cells at consecutive addresses `p, p+1, ...` denote the ground
terms of the list. -/
inductive ReifiesAt (s : Storage) (lo : Nat) : Nat → GTermList → Prop where
  | nil : ∀ p, ReifiesAt s lo p GTermList.nil
  | cons : ∀ p t ts c,
      s.store[p]? = some c →
      Reifies s lo c t →
      ReifiesAt s lo (p + 1) ts →
      ReifiesAt s lo p (GTermList.cons t ts)
end

/-- Store of the run-continues counterexample: register 0 holds a structure
pointer to a `Funct(7, 0)` header. -/
def csRun : Storage := { store := [Cell.Struct 1, Cell.Funct 7 0], regs := 2 }

/-- Machine state over `csRun` (as built by `Machine::with_storage` in the
source's tests). -/
def mRun : Machine :=
  { storage := csRun, preg := 0, sreg := 0, unification_state := UnificationState.Read }

/-- Program of the run-continues counterexample:
`GetStructure(5, 0, 0); SetVariable(0)` (the first instruction fails on the
functor mismatch `Funct(7,0) ≠ Funct(5,0)`). -/
def pRun : Program :=
  { program := encodeOps [Operation.GetStructure 5 0 0, Operation.SetVariable 0], xregs := 1 }

/-- Store of the unify-divergence counterexample: two distinct cyclic
structures `X = f(X)` and `Y = f(Y)` (the argument slot of each structure
refers back to its own structure cell).  All spec invariants I1-I4 hold. -/
def csCyc : Storage :=
  { store := [Cell.Struct 1, Cell.Funct 0 1, Cell.Ref 0,
              Cell.Struct 4, Cell.Funct 0 1, Cell.Ref 3], regs := 0 }

/-- Store of the unify-soundness counterexample: two matching constant
structures stored in separate heap blocks. -/
def csConst : Storage :=
  { store := [Cell.Struct 1, Cell.Funct 5 0, Cell.Struct 3, Cell.Funct 5 0], regs := 0 }

/-- Store with two distinct free variables (used as a concrete witness
input). -/
def csTwoVars : Storage := { store := [Cell.Ref 0, Cell.Ref 1], regs := 0 }

/-- Store with two distinct non-variable cells (used to show that `bind`
does nothing when neither address holds a free variable). -/
def csTwoConsts : Storage := { store := [Cell.Funct 0 0, Cell.Funct 1 0], regs := 0 }


/-- The registers of the list hold exactly the given cells. -/
def RegsHold (st : Storage) : List Nat → List Cell → Prop
  | [], [] => True
  | r :: rs, c :: cs => st.store[r]? = some c ∧ RegsHold st rs cs
  | _, _ => False

/-- The cells denote the ground terms of the list, pointwise. -/
def CellsReify (st : Storage) (R : Nat) : List Cell → GTermList → Prop
  | [], GTermList.nil => True
  | c :: cs, GTermList.cons t ts => Reifies st R c t ∧ CellsReify st R cs ts
  | _, _ => False

/-- Each register of the list holds a cell denoting the corresponding
ground term. -/
def RegsReify (st : Storage) (R : Nat) : List Nat → GTermList → Prop
  | [], GTermList.nil => True
  | r :: rs, GTermList.cons t ts =>
      (∃ c : Cell, st.store[r]? = some c ∧ Reifies st R c t) ∧ RegsReify st R rs ts
  | _, _ => False

/-! ## Theorems -/

set_option maxRecDepth 10000

/-- Fuel monotonicity of `derefIdxF`: a definitive answer is stable under
more fuel. -/
theorem derefIdxF_mono {s : Storage} :
    ∀ {n m a : Nat} {r : Option Nat}, derefIdxF n s a = some r → n ≤ m →
      derefIdxF m s a = some r := by
  intro n
  induction n with
  | zero => intro m a r h; simp [derefIdxF] at h
  | succ k ih =>
    intro m a r h hm
    obtain ⟨m', rfl⟩ : ∃ m', m = m' + 1 := ⟨m - 1, by omega⟩
    rw [derefIdxF] at h ⊢
    cases hl : s.store[a]? with
    | none => rw [hl] at h; exact h
    | some c =>
      rw [hl] at h
      cases c with
      | Ref b =>
        by_cases hb : b = a
        · simp only [hb, if_pos rfl] at h ⊢; exact h
        · simp only [if_neg hb] at h ⊢; exact ih h (by omega)
      | Struct v => exact h
      | Funct f n => exact h

/-- A successful dereference lands on an address that holds a cell. -/
theorem derefIdxF_inBounds {s : Storage} :
    ∀ {n a t : Nat}, derefIdxF n s a = some (some t) → ∃ c, s.store[t]? = some c := by
  intro n
  induction n with
  | zero => intro a t h; simp [derefIdxF] at h
  | succ k ih =>
    intro a t h
    cases hl : s.store[a]? with
    | none => simp [derefIdxF, hl] at h
    | some c =>
      cases c with
      | Ref b =>
        by_cases hb : b = a
        · simp [derefIdxF, hl, hb] at h
          subst h
          exact ⟨Cell.Ref b, by rw [hb] at hl ⊢; exact hl⟩
        · simp [derefIdxF, hl, hb] at h
          exact ih h
      | Struct v =>
        simp [derefIdxF, hl] at h
        subst h
        exact ⟨Cell.Struct v, hl⟩
      | Funct f m =>
        simp [derefIdxF, hl] at h
        subst h
        exact ⟨Cell.Funct f m, hl⟩

/-- The terminal of a successful dereference is terminal: dereferencing
from it stops at once. -/
theorem derefIdxF_self {s : Storage} :
    ∀ {n a t : Nat}, derefIdxF n s a = some (some t) → derefIdxF 1 s t = some (some t) := by
  intro n
  induction n with
  | zero => intro a t h; simp [derefIdxF] at h
  | succ k ih =>
    intro a t h
    cases hl : s.store[a]? with
    | none => simp [derefIdxF, hl] at h
    | some c =>
      cases c with
      | Ref b =>
        by_cases hb : b = a
        · simp [derefIdxF, hl, hb] at h
          subst h
          rw [hb] at hl
          simp [derefIdxF, hl]
        · simp [derefIdxF, hl, hb] at h
          exact ih h
      | Struct v =>
        simp [derefIdxF, hl] at h
        subst h
        simp [derefIdxF, hl]
      | Funct f m =>
        simp [derefIdxF, hl] at h
        subst h
        simp [derefIdxF, hl]

/-- If the terminal cell is a `Ref`, it is a self-reference. -/
theorem derefIdxF_terminal {s : Storage} {n a t r : Nat}
    (h : derefIdxF n s a = some (some t)) (hl : s.store[t]? = some (Cell.Ref r)) : r = t := by
  have h1 := derefIdxF_self (s := s) h
  by_cases hr : r = t
  · exact hr
  · simp [derefIdxF, hl, hr] at h1

/-- The dereference terminal is unique. -/
theorem DerefTerm_unique {s : Storage} {a t t' : Nat}
    (h : DerefTerm s a t) (h' : DerefTerm s a t') : t = t' := by
  obtain ⟨n, hn⟩ := h
  obtain ⟨m, hm⟩ := h'
  have := derefIdxF_mono (s := s) hn (Nat.le_max_left n m)
  have := derefIdxF_mono (s := s) hm (Nat.le_max_right n m)
  simp_all

/-- Prepending one non-self `Ref` step to a dereference chain. -/
theorem DerefTerm_step {s : Storage} {a b t : Nat}
    (hl : s.store[a]? = some (Cell.Ref b)) (hb : b ≠ a) (h : DerefTerm s b t) :
    DerefTerm s a t := by
  obtain ⟨n, hn⟩ := h
  exact ⟨n + 1, by simp [derefIdxF, hl, hb]; exact hn⟩

/-- A dereference terminal dereferences to itself. -/
theorem DerefTerm_self {s : Storage} {a t : Nat} (h : DerefTerm s a t) : DerefTerm s t t := by
  obtain ⟨n, hn⟩ := h
  exact ⟨1, derefIdxF_self (s := s) hn⟩

/-- C5, counterexample: `reset(regs)` does not default-initialize register
cells that survive the resize.  Resetting a one-cell store holding
`Funct(7,0)` to one register leaves the `Funct(7,0)` cell in register 0,
which is not the default cell; moreover the default cell is `Ref(0)`, and
at address 1 it is not a self-reference (there is no `Empty` variant at
all). -/
theorem C5_counterexample :
    ((Storage.mk [Cell.Funct 7 0] 1).reset 1).store[0]? = some (Cell.Funct 7 0) ∧
    Cell.Funct 7 0 ≠ Cell.defaultCell ∧
    ((Storage.new.reset 2).store[1]? = some (Cell.Ref 0) ∧ Cell.Ref 0 ≠ Cell.Ref 1) := by
  decide

/-- C5, amended: after `reset(regs)` the store holds exactly `regs` cells
and records `regs` as the register count; a register cell beyond the
previous store length holds the default cell `Ref(0)` (not a
self-reference, and there is no `Empty` variant), while a register cell
below the previous length keeps its previous contents; all cells at
addresses `≥ regs` (in particular all prior heap state) are discarded. -/
theorem C5_reset_spec (s : Storage) (regs : Nat) :
    (s.reset regs).store.length = regs ∧ (s.reset regs).regs = regs ∧
    (∀ i : Nat, i < regs →
      (s.reset regs).store[i]? =
        if i < s.store.length then s.store[i]? else some Cell.defaultCell) := by
  refine ⟨?_, rfl, ?_⟩
  · simp [Storage.reset]
    omega
  · intro i hi
    by_cases hlen : i < s.store.length
    · rw [if_pos hlen]
      simp only [Storage.reset]
      rw [List.getElem?_append, if_pos (by simp; omega), List.getElem?_take, if_pos hi]
    · rw [if_neg hlen]
      simp only [Storage.reset]
      rw [List.getElem?_append_right (by simp; omega), List.getElem?_replicate,
        if_pos (by simp; omega)]

/-- C5, witness for the amended theorem at a concrete input: resetting a
one-cell store to three registers keeps the surviving cell and fills the
new registers with `Ref(0)`. -/
theorem C5_reset_spec_witness :
    ((Storage.mk [Cell.Funct 7 0] 1).reset 3).store[0]? = some (Cell.Funct 7 0) ∧
    ((Storage.mk [Cell.Funct 7 0] 1).reset 3).store[2]? = some Cell.defaultCell := by
  refine ⟨?_, ?_⟩
  · have h := (C5_reset_spec (Storage.mk [Cell.Funct 7 0] 1) 3).2.2 0 (by decide)
    simpa using h
  · have h := (C5_reset_spec (Storage.mk [Cell.Funct 7 0] 1) 3).2.2 2 (by decide)
    simpa using h

/-- C9, counterexample: `bind` silently does nothing when neither address
holds a free variable, so dereferencing afterwards does not yield the same
terminal cell: on the store `[Funct(0,0), Funct(1,0)]`, after `bind(0,1)`
address 0 still dereferences to terminal 0 holding `Funct(0,0)` and
address 1 to terminal 1 holding `Funct(1,0)`. -/
theorem C9_counterexample :
    csTwoConsts.bind 0 1 = csTwoConsts ∧
    derefIdxF 3 (csTwoConsts.bind 0 1) 0 = some (some 0) ∧
    derefIdxF 3 (csTwoConsts.bind 0 1) 1 = some (some 1) ∧
    (csTwoConsts.bind 0 1).store[0]? ≠ (csTwoConsts.bind 0 1).store[1]? := by
  decide

/-- C9, amended: for in-bounds addresses `a1, a2`, PROVIDED at least one of
the two cells is a free variable (a self-reference), dereferencing from
`a1` and from `a2` after `bind(a1, a2)` reaches the same terminal (and
hence the same terminal cell); without that precondition `bind` does
nothing (the acknowledged caller-contract case). -/
theorem C9_bind_deref (s : Storage) (a1 a2 : Nat)
    (h1 : a1 < s.store.length) (h2 : a2 < s.store.length)
    (hfree : s.isFreeAt a1 = true ∨ s.isFreeAt a2 = true) :
    ∀ t : Nat, DerefTerm (s.bind a1 a2) a1 t ↔ DerefTerm (s.bind a1 a2) a2 t := by
  intro t
  by_cases heq : a1 = a2
  · rw [heq]
  · rcases hfree with hf | hf
    · have hbind : (s.bind a1 a2).store = s.store.set a1 (Cell.Ref a2) := by
        simp [Storage.bind, hf]
      have hcell : (s.bind a1 a2).store[a1]? = some (Cell.Ref a2) := by
        rw [hbind]
        exact List.getElem?_set_self h1
      constructor
      · rintro ⟨n, hn⟩
        cases n with
        | zero => simp [derefIdxF] at hn
        | succ k =>
          rw [derefIdxF, hcell] at hn
          have hne : a2 ≠ a1 := fun h => heq h.symm
          simp only [hne, if_false] at hn
          exact ⟨k, hn⟩
      · intro h
        exact DerefTerm_step hcell (fun h => heq h.symm) h
    · by_cases hf1 : s.isFreeAt a1 = true
      · have hbind : (s.bind a1 a2).store = s.store.set a1 (Cell.Ref a2) := by
          simp [Storage.bind, hf1]
        have hcell : (s.bind a1 a2).store[a1]? = some (Cell.Ref a2) := by
          rw [hbind]
          exact List.getElem?_set_self h1
        constructor
        · rintro ⟨n, hn⟩
          cases n with
          | zero => simp [derefIdxF] at hn
          | succ k =>
            rw [derefIdxF, hcell] at hn
            have hne : a2 ≠ a1 := fun h => heq h.symm
            simp only [hne, if_false] at hn
            exact ⟨k, hn⟩
        · intro h
          exact DerefTerm_step hcell (fun h => heq h.symm) h
      · have hbind : (s.bind a1 a2).store = s.store.set a2 (Cell.Ref a1) := by
          simp [Storage.bind, hf1, hf]
        have hcell : (s.bind a1 a2).store[a2]? = some (Cell.Ref a1) := by
          rw [hbind]
          exact List.getElem?_set_self h2
        constructor
        · intro h
          exact DerefTerm_step hcell heq h
        · rintro ⟨n, hn⟩
          cases n with
          | zero => simp [derefIdxF] at hn
          | succ k =>
            rw [derefIdxF, hcell] at hn
            simp only [heq, if_false] at hn
            exact ⟨k, hn⟩

/-- C9, witness for the amended theorem at a concrete input: binding two
free variables makes both addresses dereference to terminal 1. -/
theorem C9_bind_deref_witness :
    DerefTerm (csTwoVars.bind 0 1) 0 1 ↔ DerefTerm (csTwoVars.bind 0 1) 1 1 :=
  C9_bind_deref csTwoVars 0 1 (by decide) (by decide) (Or.inl (by decide)) 1

/-- C2: evaluating the builder at the failing input.  The word stream of
the built program references register 5 (in `GetStructure`) and register 7
(in `UnifyVariable`), yet `x_registers()` reports 0, contradicting both the
claim and the function's own documentation ("highest index of registers
used in program + 1"); the three get/unify builder methods never update
`xregs`. -/
theorem C2_xregs_eval :
    ((ProgramBuilder.empty.get_structure 0 0 5).build).x_registers = 0 ∧
    ((ProgramBuilder.empty.get_structure 0 0 5).build).program = [3, 0, 0, 5] ∧
    ((ProgramBuilder.empty.unify_variable 7).build).x_registers = 0 ∧
    (((ProgramBuilder.empty.unify_value 9).build)).x_registers = 0 ∧
    ((ProgramBuilder.empty.put_structure 0 0 5).build).x_registers = 6 := by
  decide

/-- C1, counterexample: a failing step does not abort the run.  On the
store `[Struct 1, Funct(7,0)]` the instruction `GetStructure(5, 0, 0)`
fails (functor mismatch: `Funct(7,0) ≠ Funct(5,0)`) and reports `false`,
yet `Machine::run` executes the following `SetVariable(0)` all the same:
the final store shows the pushed variable cell at address 2 and register 0
overwritten with `Ref(2)`. -/
theorem C1_counterexample :
    mRun.perform_op 5 (Operation.GetStructure 5 0 0) = some ({ mRun with preg := 4 }, false) ∧
    (Machine.run 5 mRun pRun).map (fun m => m.storage.store) =
      some [Cell.Ref 2, Cell.Funct 7 0, Cell.Ref 2] := by
  exact ⟨rfl, rfl⟩

/-- C1, amended: every instruction computes a success value, but the
execution loop of `Machine::run` discards it: when the decoded instruction
reports `false` the loop simply continues with the successor state (whose
`preg` was advanced by the stride as usual); moreover `UnifyValue` in read
mode reports `true` even when the underlying `unify` returned `false`
(keeping the partially mutated store).  No short-circuit occurs anywhere. -/
theorem C1_run_ignores_failure :
    (∀ (df fuel : Nat) (m m1 : Machine) (p : Program) (op : Operation),
      p.operation m.preg = some op →
      m.perform_op df op = some (m1, false) →
      Machine.runF df (fuel + 1) m p = Machine.runF df fuel m1 p) ∧
    (∀ (df : Nat) (st s1 : Storage) (pr sr x : Nat),
      unifyF df st [(x, sr)] = some (false, s1) →
      (Machine.mk st pr sr UnificationState.Read).perform_op df (Operation.UnifyValue x) =
        some (Machine.mk s1 (pr + 2) (sr + 1) UnificationState.Read, true)) := by
  constructor
  · intro df fuel m m1 p op hop hperf
    simp [Machine.runF, hop, hperf]
  · intro df st s1 pr sr x hu
    simp [Machine.perform_op, Machine.unify_value, hu, Operation.advance]

/-- C1, witness for the amended theorem at the counterexample input: after
the failing `GetStructure(5,0,0)` the loop continues from the advanced
state. -/
theorem C1_run_ignores_failure_witness :
    Machine.runF 5 2 mRun pRun = Machine.runF 5 1 { mRun with preg := 4 } pRun :=
  C1_run_ignores_failure.1 5 1 mRun { mRun with preg := 4 } pRun
    (Operation.GetStructure 5 0 0) rfl rfl

/-- C10: the register-writing instructions and `bind` index the store
directly; an out-of-bounds index is an abort (`none`, a Rust panic), never
a reported unification failure (`some (_, false)`).  Each conjunct gives
the exact bound at the moment of the access: `PutStructure` writes after
two pushes (bound `len + 2`), `SetVariable` and write-mode `UnifyVariable`
after one push (bound `len + 1`), `SetValue`, write-mode `UnifyValue` and
read-mode `UnifyVariable` read at the current length; `bind` reads both
addresses at the current length.  Read-mode `UnifyValue` never
index-panics: it can only fail to return when its inner `unify` loop does
not terminate. -/
theorem C10_unchecked_indexing :
    (∀ (s : Storage) (a1 a2 : Nat),
      s.bindChecked a1 a2 = none ↔ (s.store.length ≤ a1 ∨ s.store.length ≤ a2)) ∧
    (∀ (df : Nat) (st : Storage) (pr sr : Nat) (u : UnificationState) (ident arity x : Nat),
      (Machine.mk st pr sr u).perform_op df (Operation.PutStructure ident arity x) = none ↔
        st.store.length + 2 ≤ x) ∧
    (∀ (df : Nat) (st : Storage) (pr sr : Nat) (u : UnificationState) (x : Nat),
      (Machine.mk st pr sr u).perform_op df (Operation.SetVariable x) = none ↔
        st.store.length + 1 ≤ x) ∧
    (∀ (df : Nat) (st : Storage) (pr sr : Nat) (u : UnificationState) (x : Nat),
      (Machine.mk st pr sr u).perform_op df (Operation.SetValue x) = none ↔
        st.store.length ≤ x) ∧
    (∀ (df : Nat) (st : Storage) (pr sr : Nat) (x : Nat),
      (Machine.mk st pr sr UnificationState.Read).perform_op df (Operation.UnifyVariable x) = none ↔
        (st.store.length ≤ sr ∨ st.store.length ≤ x)) ∧
    (∀ (df : Nat) (st : Storage) (pr sr : Nat) (x : Nat),
      (Machine.mk st pr sr UnificationState.Write).perform_op df (Operation.UnifyVariable x) = none ↔
        st.store.length + 1 ≤ x) ∧
    (∀ (df : Nat) (st : Storage) (pr sr : Nat) (x : Nat),
      (Machine.mk st pr sr UnificationState.Write).perform_op df (Operation.UnifyValue x) = none ↔
        st.store.length ≤ x) ∧
    (∀ (df : Nat) (st : Storage) (pr sr : Nat) (x : Nat),
      (Machine.mk st pr sr UnificationState.Read).perform_op df (Operation.UnifyValue x) = none ↔
        unifyF df st [(x, sr)] = none) := by
  refine ⟨?_, ?_, ?_, ?_, ?_, ?_, ?_, ?_⟩
  · intro s a1 a2
    by_cases h : a1 < s.store.length ∧ a2 < s.store.length
    · simp only [Storage.bindChecked, if_pos h]
      constructor
      · intro hc; exact Option.noConfusion hc
      · intro hc; omega
    · simp only [Storage.bindChecked, if_neg h]
      constructor
      · intro _; omega
      · intro _; trivial
  · intro df st pr sr u ident arity x
    by_cases hx : x < st.store.length + 2
    · simp [Machine.perform_op, Machine.put_structure, Storage.push_struct,
        Storage.writeChecked, hx]
    · simp [Machine.perform_op, Machine.put_structure, Storage.push_struct,
        Storage.writeChecked, hx]
      omega
  · intro df st pr sr u x
    by_cases hx : x < st.store.length + 1
    · simp [Machine.perform_op, Machine.set_variable, Storage.push_var,
        Storage.writeChecked, hx]
    · simp [Machine.perform_op, Machine.set_variable, Storage.push_var,
        Storage.writeChecked, hx]
      omega
  · intro df st pr sr u x
    cases hx : st.store[x]? with
    | none =>
      simp [Machine.perform_op, Machine.set_value, hx]
      exact List.getElem?_eq_none_iff.mp hx
    | some c =>
      simp [Machine.perform_op, Machine.set_value, hx]
      by_contra hc
      rw [List.getElem?_eq_none (by omega)] at hx
      exact Option.noConfusion hx
  · intro df st pr sr x
    cases hsr : st.store[sr]? with
    | none =>
      simp [Machine.perform_op, Machine.unify_variable, hsr]
      exact Or.inl (List.getElem?_eq_none_iff.mp hsr)
    | some c =>
      have hsrlt : sr < st.store.length := by
        by_contra hc
        rw [List.getElem?_eq_none (by omega : st.store.length ≤ sr)] at hsr
        exact Option.noConfusion hsr
      by_cases hx : x < st.store.length
      · simp [Machine.perform_op, Machine.unify_variable, hsr, Storage.writeChecked, hx]
        omega
      · simp [Machine.perform_op, Machine.unify_variable, hsr, Storage.writeChecked, hx]
        omega
  · intro df st pr sr x
    by_cases hx : x < st.store.length + 1
    · simp [Machine.perform_op, Machine.unify_variable, Storage.push_var,
        Storage.writeChecked, hx]
    · simp [Machine.perform_op, Machine.unify_variable, Storage.push_var,
        Storage.writeChecked, hx]
      omega
  · intro df st pr sr x
    cases hx : st.store[x]? with
    | none =>
      simp [Machine.perform_op, Machine.unify_value, hx]
      exact List.getElem?_eq_none_iff.mp hx
    | some c =>
      simp [Machine.perform_op, Machine.unify_value, hx]
      by_contra hc
      rw [List.getElem?_eq_none (by omega)] at hx
      exact Option.noConfusion hx
  · intro df st pr sr x
    cases hu : unifyF df st [(x, sr)] with
    | none => simp [Machine.perform_op, Machine.unify_value, hu]
    | some r => simp [Machine.perform_op, Machine.unify_value, hu]

/-- Machine state used in the C6 counterexample: register 0 holds a
structure pointer whose target address 5 is out of bounds. -/
def mPanic : Machine :=
  { storage := { store := [Cell.Struct 5], regs := 1 }, preg := 0, sreg := 0,
    unification_state := UnificationState.Read }

/-- C6, counterexample: not every non-matching case makes `GetStructure`
fail (return `false`).  When `deref(x)` is `Struct(a)` with `a` out of
bounds, the source indexes `self.storage[a]` directly and panics (modelled
as `none`), which is an abort rather than a reported failure
(`some (_, false)`).  (This state violates invariant I1 and is unreachable
through the builders, but the claim quantifies over every executed
instruction.) -/
theorem C6_counterexample : Machine.get_structure 3 mPanic 1 0 0 = none := by
  decide

/-- C6, amended: for every executed `GetStructure(id, n, x)`: if `deref(x)`
is a free variable `Ref(t)` (any terminal `Ref` is a self-reference), a
fresh structure pair (`Struct` then `Funct(id,n)`) is appended with the
`Struct` cell at `k = ` the old store length, `bind(t, k)` is performed and
the mode becomes Write; if `deref(x)` is `Struct(a)` with
`store[a] = Funct(id, n)`, then `sreg` is set to `a+1` and the mode becomes
Read; in every other case the instruction fails — EXCEPT when `deref(x)` is
`Struct(a)` with `a` out of bounds, where the source panics on the direct
index (an abort, `none`, not a reported failure). -/
theorem C6_get_structure_cases (df : Nat) (m : Machine) (ident arity xreg : Nat) :
    (∀ t : Nat, derefIdxF df m.storage xreg = some (some t) →
      m.storage.store[t]? = some (Cell.Ref t) →
      Machine.get_structure df m ident arity xreg =
        some ({ m with
                  storage := ((m.storage.push_struct ident arity).1).bind t
                    m.storage.store.length,
                  unification_state := UnificationState.Write }, true)) ∧
    (∀ t a : Nat, derefIdxF df m.storage xreg = some (some t) →
      m.storage.store[t]? = some (Cell.Struct a) →
      m.storage.store[a]? = some (Cell.Funct ident arity) →
      Machine.get_structure df m ident arity xreg =
        some ({ m with sreg := a + 1, unification_state := UnificationState.Read }, true)) ∧
    (∀ (t a : Nat) (c : Cell), derefIdxF df m.storage xreg = some (some t) →
      m.storage.store[t]? = some (Cell.Struct a) →
      m.storage.store[a]? = some c → c ≠ Cell.Funct ident arity →
      Machine.get_structure df m ident arity xreg = some (m, false)) ∧
    (∀ t f n : Nat, derefIdxF df m.storage xreg = some (some t) →
      m.storage.store[t]? = some (Cell.Funct f n) →
      Machine.get_structure df m ident arity xreg = some (m, false)) ∧
    (derefIdxF df m.storage xreg = some none →
      Machine.get_structure df m ident arity xreg = some (m, false)) ∧
    (∀ t a : Nat, derefIdxF df m.storage xreg = some (some t) →
      m.storage.store[t]? = some (Cell.Struct a) →
      m.storage.store[a]? = none →
      Machine.get_structure df m ident arity xreg = none) := by
  refine ⟨?_, ?_, ?_, ?_, ?_, ?_⟩
  · intro t hd hc
    simp [Machine.get_structure, hd, hc]
  · intro t a hd hc hf
    simp [Machine.get_structure, hd, hc, hf]
  · intro t a c hd hc hf hne
    simp [Machine.get_structure, hd, hc, hf, hne]
  · intro t f n hd hc
    simp [Machine.get_structure, hd, hc]
  · intro hd
    simp [Machine.get_structure, hd]
  · intro t a hd hc hf
    simp [Machine.get_structure, hd, hc, hf]

/-- C6, witness for the amended theorem at a concrete input: on the store
`[Ref 0]` (register 0 a free variable), `GetStructure(4, 1, 0)` appends the
fresh structure at address 1, binds address 0 to it and switches to write
mode. -/
theorem C6_get_structure_cases_witness :
    Machine.get_structure 2 (Machine.mk (Storage.mk [Cell.Ref 0] 1) 0 0 UnificationState.Read)
      4 1 0 =
    some (Machine.mk (Storage.mk [Cell.Ref 1, Cell.Struct 2, Cell.Funct 4 1] 1) 0 0
      UnificationState.Write, true) := by
  have h := (C6_get_structure_cases 2
    (Machine.mk (Storage.mk [Cell.Ref 0] 1) 0 0 UnificationState.Read) 4 1 0).1 0
    (by decide) (by decide)
  simpa using h

/-- The inner child loop of `StatementBuilder::build` never changes the
builder's `xregs` (it emits only `UnifyValue`/`UnifyVariable`, whose
builder methods do not update `xregs`). -/
theorem stmtChild_fold_xregs (l : List Nat) :
    ∀ acc : ProgramBuilder × List Bool × List Nat,
      (l.foldl stmtChild acc).1.xregs = acc.1.xregs := by
  induction l with
  | nil => intro acc; rfl
  | cons i l ih =>
    intro acc
    obtain ⟨pb, visited, stk⟩ := acc
    rw [List.foldl_cons, ih]
    by_cases hv : visited[i]?.getD false = true
    · simp [stmtChild, List.getD_eq_getElem?_getD, hv, ProgramBuilder.unify_value]
    · simp [stmtChild, List.getD_eq_getElem?_getD, hv, ProgramBuilder.unify_variable]

/-- The work-stack loop of `StatementBuilder::build` never changes the
builder's `xregs` (it emits only `GetStructure` and unify instructions,
none of which update `xregs`). -/
theorem stmtLoop_xregs :
    ∀ (fuel : Nat) (regs : List RegisterAllocation) (stack : List Nat)
      (visited : List Bool) (pb : ProgramBuilder),
      (stmtLoop fuel regs stack visited pb).xregs = pb.xregs := by
  intro fuel
  induction fuel with
  | zero => intro regs stack visited pb; rfl
  | succ k ih =>
    intro regs stack visited pb
    cases stack with
    | nil => rfl
    | cons reg rest =>
      cases hl : regs[reg]? with
      | none => simp [stmtLoop, hl, ih]
      | some a =>
        cases a with
        | Var => simp [stmtLoop, hl, ih]
        | Struct ident st =>
          simp only [stmtLoop, hl]
          rw [ih]
          have h := stmtChild_fold_xregs st (pb.get_structure ident st.length reg, visited, rest)
          simpa [ProgramBuilder.get_structure] using h

/-- Every program built by the statement compiler reports zero required X
registers: the emitted instructions are exclusively get/unify instructions
and the corresponding `ProgramBuilder` methods never update `xregs`. -/
theorem stmt_build_xregs (registers : List RegisterAllocation) (r : Nat) :
    (StatementBuilder.build registers r).x_registers = 0 := by
  simp [StatementBuilder.build, Program.x_registers, ProgramBuilder.build, stmtLoop_xregs,
    ProgramBuilder.empty]

/-- The register requirement of statement-built knowledge is always 0. -/
theorem knowledge_x_zero (l : List (List RegisterAllocation × Nat)) :
    knowledgeXRegisters (l.map fun ar => StatementBuilder.build ar.1 ar.2) = 0 := by
  induction l with
  | nil => rfl
  | cons a l ih =>
    simp only [List.map_cons, knowledgeXRegisters, List.foldr_cons]
    have h := stmt_build_xregs a.1 a.2
    simp only [knowledgeXRegisters] at ih
    rw [h, ih]
    simp

/-- C7: `Machine::query` consults at most one fact: with any nonempty
knowledge of compiled statements, the result equals the result with only
the first statement.  (The `take(1)` in the source skips every later fact
program, and the storage sizing is also unaffected because every
statement-built program reports zero required registers.) -/
theorem C7_first_fact_only (df : Nat) (m : Machine) (q : Query)
    (first : List RegisterAllocation × Nat) (rest : List (List RegisterAllocation × Nat)) :
    Machine.query df m q ((first :: rest).map fun ar => StatementBuilder.build ar.1 ar.2) =
    Machine.query df m q [StatementBuilder.build first.1 first.2] := by
  have h1 := knowledge_x_zero (first :: rest)
  have h2 := knowledge_x_zero [first]
  simp only [List.map_cons, List.map_nil] at h2
  simp only [Machine.query, h1, h2]
  simp only [List.map_cons, List.take_succ_cons, List.take_zero]

/-- Decoding succeeds only inside the program: `operation` reads the opcode
word first. -/
theorem operation_some_lt {p : Program} {i : Nat} {op : Operation}
    (h : p.operation i = some op) : i < p.program.length := by
  by_contra hc
  rw [Program.operation, List.getElem?_eq_none (by omega)] at h
  exact Option.noConfusion h

/-- Every instruction advances the instruction pointer by at least two
words. -/
theorem advance_ge_two (op : Operation) : 2 ≤ op.advance := by
  cases op <;> simp [Operation.advance]

/-- A successful step leaves `preg` advanced by exactly the stride. -/
theorem perform_op_preg {df : Nat} {m m1 : Machine} {op : Operation} {b : Bool}
    (h : m.perform_op df op = some (m1, b)) : m1.preg = m.preg + op.advance := by
  simp only [Machine.perform_op] at h
  cases hres : (match op with
    | Operation.PutStructure ident arity xreg => m.put_structure ident arity xreg
    | Operation.SetVariable xreg => m.set_variable xreg
    | Operation.SetValue xreg => m.set_value xreg
    | Operation.GetStructure ident arity xreg => Machine.get_structure df m ident arity xreg
    | Operation.UnifyVariable xreg => m.unify_variable xreg
    | Operation.UnifyValue xreg => Machine.unify_value df m xreg) with
  | none => rw [hres] at h; exact Option.noConfusion h
  | some r =>
    obtain ⟨m2, b2⟩ := r
    rw [hres] at h
    simp at h
    rw [← h.1]

/-- The run loop stabilizes: any fuel exceeding the remaining word count
gives the same result (each executed instruction strictly shrinks
`program.length - preg` by at least two). -/
theorem runF_stable (df : Nat) (p : Program) :
    ∀ (fuel fuel' : Nat) (m : Machine),
      p.program.length - m.preg < fuel → p.program.length - m.preg < fuel' →
      Machine.runF df fuel m p = Machine.runF df fuel' m p := by
  intro fuel
  induction fuel with
  | zero => intro fuel' m h _; exact absurd h (Nat.not_lt_zero _)
  | succ k ih =>
    intro fuel' m h h'
    obtain ⟨k', rfl⟩ : ∃ k', fuel' = k' + 1 := ⟨fuel' - 1, by omega⟩
    rw [Machine.runF, Machine.runF]
    cases hop : p.operation m.preg with
    | none => rfl
    | some op =>
      dsimp only
      cases hperf : m.perform_op df op with
      | none => rfl
      | some r =>
        obtain ⟨m1, b⟩ := r
        dsimp only
        have hlt := operation_some_lt hop
        have hadv := advance_ge_two op
        have hpreg := perform_op_preg hperf
        exact ih k' m1 (by omega) (by omega)

/-- Termination of dereferencing under the ranked acyclicity invariant I4:
from every starting address the loop reaches a definitive answer within
some fuel. -/
theorem deref_terminates_of_ranked (s : Storage) (h : RankedRefs s) :
    ∀ a : Nat, ∃ (n : Nat) (r : Option Nat), derefIdxF n s a = some r := by
  obtain ⟨rank, hrank⟩ := h
  have key : ∀ (k a : Nat), rank a ≤ k → ∃ (n : Nat) (r : Option Nat), derefIdxF n s a = some r := by
    intro k
    induction k with
    | zero =>
      intro a ha
      cases hl : s.store[a]? with
      | none => exact ⟨1, none, by simp [derefIdxF, hl]⟩
      | some c =>
        cases c with
        | Ref b =>
          by_cases hb : b = a
          · exact ⟨1, some b, by simp [derefIdxF, hl, hb]⟩
          · exact absurd (hrank a b hl hb) (by omega)
        | Struct v => exact ⟨1, some a, by simp [derefIdxF, hl]⟩
        | Funct f n => exact ⟨1, some a, by simp [derefIdxF, hl]⟩
    | succ k ih =>
      intro a ha
      cases hl : s.store[a]? with
      | none => exact ⟨1, none, by simp [derefIdxF, hl]⟩
      | some c =>
        cases c with
        | Ref b =>
          by_cases hb : b = a
          · exact ⟨1, some b, by simp [derefIdxF, hl, hb]⟩
          · obtain ⟨n, r, hr⟩ := ih b (by have := hrank a b hl hb; omega)
            exact ⟨n + 1, r, by simp [derefIdxF, hl, hb]; exact hr⟩
        | Struct v => exact ⟨1, some a, by simp [derefIdxF, hl]⟩
        | Funct f n => exact ⟨1, some a, by simp [derefIdxF, hl]⟩
  exact fun a => key (rank a) a le_rfl

/-- C8, counterexample: the work stack of `unify` need not drain under
I1-I4.  The store `csCyc` satisfies I1 (every structure pointer reaches an
in-bounds `Funct` header with in-bounds slots) and I4 (all reference chains
are acyclic; a ranking function witnesses it) — yet unifying the two cyclic
structures at addresses 0 and 3 loops forever: after 19 loop iterations
(far beyond any count of structure-slot pairs in this 6-cell store, which
has one argument slot per structure) the stack has neither drained nor
failed, and the state repeats. -/
theorem C8_counterexample :
    StructInv csCyc ∧ RankedRefs csCyc ∧ unifyF 20 csCyc [(0, 3)] = none := by
  refine ⟨?_, ⟨fun a => [0, 0, 1, 0, 0, 1].getD a 0, ?_⟩, by decide⟩
  · intro a v h
    have ha : a < 6 := by
      by_contra hc
      rw [List.getElem?_eq_none (show csCyc.store.length ≤ a by simp [csCyc]; omega)] at h
      exact Option.noConfusion h
    interval_cases a
    · simp [csCyc] at h
      subst h
      exact ⟨0, 1, by decide, by decide⟩
    · simp [csCyc] at h
    · simp [csCyc] at h
    · simp [csCyc] at h
      subst h
      exact ⟨0, 1, by decide, by decide⟩
    · simp [csCyc] at h
    · simp [csCyc] at h
  · intro a b h hb
    have ha : a < 6 := by
      by_contra hc
      rw [List.getElem?_eq_none (show csCyc.store.length ≤ a by simp [csCyc]; omega)] at h
      exact Option.noConfusion h
    interval_cases a
    · simp [csCyc] at h
    · simp [csCyc] at h
    · simp [csCyc] at h
      subst h
      decide
    · simp [csCyc] at h
    · simp [csCyc] at h
    · simp [csCyc] at h
      subst h
      decide

/-- C8, amended: under I1-I4, `deref_idx` terminates from every starting
address (first conjunct, from the I4 ranking), and every `Machine::run`
terminates because the instruction pointer strictly increases by the
stride over the bounded program: any fuel beyond `program.length` yields
the very result of `Machine::run` (second conjunct).  The third part of
the original claim — that `unify`'s work stack always drains within the
number of structure-slot pairs — is false under I1-I4 (see the
counterexample): it requires the structure graph itself to be acyclic,
which I1-I4 do not guarantee. -/
theorem C8_termination :
    (∀ s : Storage, RankedRefs s →
      ∀ a : Nat, ∃ (n : Nat) (r : Option Nat), derefIdxF n s a = some r) ∧
    (∀ (df : Nat) (p : Program) (m : Machine) (fuel : Nat),
      p.program.length + 1 ≤ fuel →
      Machine.runF df fuel { m with preg := 0 } p = Machine.run df m p) := by
  constructor
  · exact deref_terminates_of_ranked
  · intro df p m fuel hf
    rw [Machine.run]
    exact runF_stable df p fuel (p.program.length + 1) { m with preg := 0 }
      (by simp; omega) (by simp)

/-- C8, witness for the amended theorem at concrete inputs: the ranked
store `[Ref 1, Funct 0 0]` dereferences to a definitive answer from
address 0, and extra fuel does not change the result of running `pRun`. -/
theorem C8_termination_witness :
    (∃ (n : Nat) (r : Option Nat),
      derefIdxF n (Storage.mk [Cell.Ref 1, Cell.Funct 0 0] 0) 0 = some r) ∧
    Machine.runF 5 50 { mRun with preg := 0 } pRun = Machine.run 5 mRun pRun := by
  constructor
  · refine C8_termination.1 (Storage.mk [Cell.Ref 1, Cell.Funct 0 0] 0)
      ⟨fun a => [1, 0].getD a 0, ?_⟩ 0
    intro a b h hb
    have ha : a < 2 := by
      by_contra hc
      rw [List.getElem?_eq_none (show (Storage.mk [Cell.Ref 1, Cell.Funct 0 0] 0).store.length ≤ a
        by simp; omega)] at h
      exact Option.noConfusion h
    interval_cases a
    · simp at h
      subst h
      decide
    · simp at h
  · exact C8_termination.2 5 pRun mRun 50 (by decide)

theorem Extends_refl (s : Storage) : Extends s s := ⟨rfl, fun _ _ h _ => h⟩

theorem Extends_trans {s1 s2 s3 : Storage} (h12 : Extends s1 s2) (h23 : Extends s2 s3) :
    Extends s1 s3 := by
  refine ⟨h23.1.trans h12.1, ?_⟩
  intro a c hc hne
  exact h23.2 a c (h12.2 a c hc hne) hne

theorem bind_extends (s : Storage) (a1 a2 : Nat) : Extends s (s.bind a1 a2) := by
  rw [Storage.bind]
  by_cases h1 : s.isFreeAt a1
  · rw [if_pos h1]
    refine ⟨by simp, ?_⟩
    intro a c hc hne
    have ha : a ≠ a1 := by
      intro heq
      subst heq
      rw [Storage.isFreeAt, hc] at h1
      cases c with
      | Ref r =>
        simp at h1
        exact hne (by rw [h1])
      | Struct v => simp at h1
      | Funct f n => simp at h1
    show (s.store.set a1 (Cell.Ref a2))[a]? = some c
    rw [List.getElem?_set_ne (fun h => ha h.symm)]
    exact hc
  · rw [if_neg h1]
    by_cases h2 : s.isFreeAt a2
    · rw [if_pos h2]
      refine ⟨by simp, ?_⟩
      intro a c hc hne
      have ha : a ≠ a2 := by
        intro heq
        subst heq
        rw [Storage.isFreeAt, hc] at h2
        cases c with
        | Ref r =>
          simp at h2
          exact hne (by rw [h2])
        | Struct v => simp at h2
        | Funct f n => simp at h2
      show (s.store.set a2 (Cell.Ref a1))[a]? = some c
      rw [List.getElem?_set_ne (fun h => ha h.symm)]
      exact hc
    · rw [if_neg h2]
      exact Extends_refl s

theorem unifyF_extends :
    ∀ (fuel : Nat) (s : Storage) (stack : List (Nat × Nat)) (b : Bool) (s' : Storage),
      unifyF fuel s stack = some (b, s') → Extends s s' := by
  intro fuel
  induction fuel with
  | zero => intro s stack b s' h; simp [unifyF] at h
  | succ k ih =>
    intro s stack b s' h
    cases stack with
    | nil =>
      simp [unifyF] at h
      rw [← h.2]
      exact Extends_refl s
    | cons p pld =>
      obtain ⟨p1, p2⟩ := p
      rw [unifyF] at h
      cases hd1 : derefIdxF (k + 1) s p1 with
      | none => rw [hd1] at h; exact Option.noConfusion h
      | some o1 =>
        rw [hd1] at h
        cases o1 with
        | none =>
          simp at h
          rw [← h.2]
          exact Extends_refl s
        | some d1 =>
          cases hd2 : derefIdxF (k + 1) s p2 with
          | none => rw [hd2] at h; exact Option.noConfusion h
          | some o2 =>
            rw [hd2] at h
            cases o2 with
            | none =>
              simp at h
              rw [← h.2]
              exact Extends_refl s
            | some d2 =>
              dsimp only at h
              by_cases heq : d1 = d2
              · rw [if_pos heq] at h
                exact ih s pld b s' h
              · rw [if_neg heq] at h
                cases hc1 : s.store[d1]? with
                | none =>
                  rw [hc1] at h
                  simp at h
                  rw [← h.2]
                  exact Extends_refl s
                | some c1 =>
                  cases hc2 : s.store[d2]? with
                  | none =>
                    rw [hc1, hc2] at h
                    cases c1 <;> simp at h <;> rw [← h.2] <;> exact Extends_refl s
                  | some c2 =>
                    rw [hc1, hc2] at h
                    cases c1 with
                    | Ref r1 =>
                      cases c2 <;> dsimp only at h <;>
                        exact Extends_trans (bind_extends s d1 d2) (ih _ pld b s' h)
                    | Struct v1 =>
                      cases c2 with
                      | Ref r2 =>
                        dsimp only at h
                        exact Extends_trans (bind_extends s d1 d2) (ih _ pld b s' h)
                      | Struct v2 =>
                        dsimp only at h
                        cases hf1 : Option.bind s.store[v1]? Cell.to_funct with
                        | none =>
                          rw [hf1] at h
                          simp at h
                          rw [← h.2]
                          exact Extends_refl s
                        | some fn1 =>
                          obtain ⟨f1, n1⟩ := fn1
                          cases hf2 : Option.bind s.store[v2]? Cell.to_funct with
                          | none =>
                            rw [hf1, hf2] at h
                            simp at h
                            rw [← h.2]
                            exact Extends_refl s
                          | some fn2 =>
                            obtain ⟨f2, n2⟩ := fn2
                            rw [hf1, hf2] at h
                            dsimp only at h
                            by_cases hfn : f1 = f2 ∧ n1 = n2
                            · rw [if_pos hfn] at h
                              exact ih s _ b s' h
                            · rw [if_neg hfn] at h
                              simp at h
                              rw [← h.2]
                              exact Extends_refl s
                      | Funct ff nn =>
                        simp at h
                        rw [← h.2]
                        exact Extends_refl s
                    | Funct ff nn =>
                      cases c2 with
                      | Ref r2 =>
                        dsimp only at h
                        exact Extends_trans (bind_extends s d1 d2) (ih _ pld b s' h)
                      | Struct v2 =>
                        simp at h
                        rw [← h.2]
                        exact Extends_refl s
                      | Funct f2 n2 =>
                        simp at h
                        rw [← h.2]
                        exact Extends_refl s

theorem to_funct_inv {c : Cell} {f n : Nat} (h : c.to_funct = some (f, n)) :
    c = Cell.Funct f n := by
  cases c <;> simp [Cell.to_funct] at h
  rw [h.1, h.2]

theorem optbind_to_funct_inv {s : Storage} {v f n : Nat}
    (h : Option.bind s.store[v]? Cell.to_funct = some (f, n)) :
    s.store[v]? = some (Cell.Funct f n) := by
  cases hl : s.store[v]? with
  | none => rw [hl] at h; exact Option.noConfusion h
  | some c =>
    rw [hl] at h
    simp at h
    rw [to_funct_inv h]

theorem getElem?_some_lt {l : List Cell} {i : Nat} {c : Cell} (h : l[i]? = some c) :
    i < l.length := by
  by_contra hc
  rw [List.getElem?_eq_none (by omega)] at h
  exact Option.noConfusion h

/-- Inversion of one successful step of the unification loop. -/
theorem unifyF_true_cons_inv {k : Nat} {s : Storage} {p1 p2 : Nat}
    {pld : List (Nat × Nat)} {s' : Storage}
    (h : unifyF (k + 1) s ((p1, p2) :: pld) = some (true, s')) :
    (∃ d, derefIdxF (k + 1) s p1 = some (some d) ∧ derefIdxF (k + 1) s p2 = some (some d) ∧
      unifyF k s pld = some (true, s')) ∨
    (∃ d1 d2, d1 ≠ d2 ∧
      derefIdxF (k + 1) s p1 = some (some d1) ∧ derefIdxF (k + 1) s p2 = some (some d2) ∧
      ((∃ r, s.store[d1]? = some (Cell.Ref r)) ∨
       ((∃ c1, s.store[d1]? = some c1 ∧ ∀ r : Nat, c1 ≠ Cell.Ref r) ∧
        ∃ r, s.store[d2]? = some (Cell.Ref r))) ∧
      unifyF k (s.bind d1 d2) pld = some (true, s')) ∨
    (∃ d1 d2 v1 v2 f n, d1 ≠ d2 ∧
      derefIdxF (k + 1) s p1 = some (some d1) ∧ derefIdxF (k + 1) s p2 = some (some d2) ∧
      s.store[d1]? = some (Cell.Struct v1) ∧ s.store[d2]? = some (Cell.Struct v2) ∧
      s.store[v1]? = some (Cell.Funct f n) ∧ s.store[v2]? = some (Cell.Funct f n) ∧
      unifyF k s (pushPairs v1 v2 n ++ pld) = some (true, s')) := by
  rw [unifyF] at h
  cases hd1 : derefIdxF (k + 1) s p1 with
  | none => rw [hd1] at h; exact Option.noConfusion h
  | some o1 =>
    rw [hd1] at h
    cases o1 with
    | none => simp at h
    | some d1 =>
      cases hd2 : derefIdxF (k + 1) s p2 with
      | none => rw [hd2] at h; exact Option.noConfusion h
      | some o2 =>
        rw [hd2] at h
        cases o2 with
        | none => simp at h
        | some d2 =>
          dsimp only at h
          by_cases heq : d1 = d2
          · rw [if_pos heq] at h
            exact Or.inl ⟨d1, rfl, by rw [heq], h⟩
          · rw [if_neg heq] at h
            cases hc1 : s.store[d1]? with
            | none => rw [hc1] at h; simp at h
            | some c1 =>
              cases hc2 : s.store[d2]? with
              | none =>
                rw [hc1, hc2] at h
                cases c1 <;> simp at h
              | some c2 =>
                rw [hc1, hc2] at h
                cases c1 with
                | Ref r1 =>
                  refine Or.inr (Or.inl ⟨d1, d2, heq, rfl, rfl, Or.inl ⟨r1, hc1⟩, ?_⟩)
                  cases c2 <;> dsimp only at h <;> exact h
                | Struct v1 =>
                  cases c2 with
                  | Ref r2 =>
                    dsimp only at h
                    exact Or.inr (Or.inl ⟨d1, d2, heq, rfl, rfl,
                      Or.inr ⟨⟨Cell.Struct v1, hc1, by intro r hcc; exact Cell.noConfusion hcc⟩,
                        ⟨r2, hc2⟩⟩, h⟩)
                  | Struct v2 =>
                    dsimp only at h
                    cases hf1 : Option.bind s.store[v1]? Cell.to_funct with
                    | none => rw [hf1] at h; simp at h
                    | some fn1 =>
                      obtain ⟨f1, n1⟩ := fn1
                      cases hf2 : Option.bind s.store[v2]? Cell.to_funct with
                      | none => rw [hf1, hf2] at h; simp at h
                      | some fn2 =>
                        obtain ⟨f2, n2⟩ := fn2
                        rw [hf1, hf2] at h
                        dsimp only at h
                        by_cases hfn : f1 = f2 ∧ n1 = n2
                        · rw [if_pos hfn] at h
                          refine Or.inr (Or.inr ⟨d1, d2, v1, v2, f1, n1, heq, rfl, rfl,
                            hc1, hc2, optbind_to_funct_inv hf1, ?_, h⟩)
                          rw [hfn.1, hfn.2]
                          exact optbind_to_funct_inv hf2
                        · rw [if_neg hfn] at h
                          simp at h
                  | Funct ff nn => simp at h
                | Funct ff nn =>
                  cases c2 with
                  | Ref r2 =>
                    dsimp only at h
                    exact Or.inr (Or.inl ⟨d1, d2, heq, rfl, rfl,
                      Or.inr ⟨⟨Cell.Funct ff nn, hc1, by intro r hcc; exact Cell.noConfusion hcc⟩,
                        ⟨r2, hc2⟩⟩, h⟩)
                  | Struct v2 => simp at h
                  | Funct f2 n2 => simp at h

/-- Dereference chains survive store evolution: non-free cells persist, so
a chain from `a` to `t` in `s` still leads to `t` in `s'`, whence to
whatever `t` now dereferences to. -/
theorem deref_extends {s s' : Storage} (he : Extends s s') :
    ∀ {n a t u : Nat}, derefIdxF n s a = some (some t) → DerefTerm s' t u →
      DerefTerm s' a u := by
  intro n
  induction n with
  | zero => intro a t u h _; simp [derefIdxF] at h
  | succ k ih =>
    intro a t u h htu
    cases hl : s.store[a]? with
    | none => simp [derefIdxF, hl] at h
    | some c =>
      cases c with
      | Ref b =>
        by_cases hb : b = a
        · simp [derefIdxF, hl, hb] at h
          subst h
          exact htu
        · simp [derefIdxF, hl, hb] at h
          have hpers := he.2 a (Cell.Ref b) hl (by intro hcc; exact hb (by injection hcc))
          exact DerefTerm_step hpers hb (ih h htu)
      | Struct v =>
        simp [derefIdxF, hl] at h
        subst h
        exact htu
      | Funct f m =>
        simp [derefIdxF, hl] at h
        subst h
        exact htu

theorem isFreeAt_of_refself {s : Storage} {d : Nat} (h : s.store[d]? = some (Cell.Ref d)) :
    s.isFreeAt d = true := by
  rw [Storage.isFreeAt, h]
  simp

theorem isFreeAt_false_of_nonref {s : Storage} {d : Nat} {c : Cell}
    (h : s.store[d]? = some c) (hnr : ∀ r : Nat, c ≠ Cell.Ref r) : s.isFreeAt d = false := by
  rw [Storage.isFreeAt, h]
  cases c with
  | Ref r => exact absurd rfl (hnr r)
  | Struct v => rfl
  | Funct f n => rfl

/-- After binding two in-bounds dereference terminals, every address that
dereferenced in the old store still dereferences in the new one (possibly
to a new terminal). -/
theorem bind_preserves_deref {s : Storage} {d1 d2 : Nat} (hne : d1 ≠ d2)
    (h1 : d1 < s.store.length) (h2 : d2 < s.store.length)
    (ht1 : DerefTerm s d1 d1) (ht2 : DerefTerm s d2 d2) :
    ∀ {n a t : Nat}, derefIdxF n s a = some (some t) →
      ∃ t', DerefTerm (s.bind d1 d2) a t' := by
  intro n
  induction n with
  | zero => intro a t h; simp [derefIdxF] at h
  | succ k ih =>
    intro a t h
    have hext := bind_extends s d1 d2
    cases hl : s.store[a]? with
    | none => simp [derefIdxF, hl] at h
    | some c =>
      cases c with
      | Ref b =>
        by_cases hb : b = a
        · -- a is free in s
          subst hb
          by_cases ha1 : b = d1
          · subst ha1
            -- bind takes the first branch
            have hfree := isFreeAt_of_refself hl
            have hstore : (s.bind b d2).store = s.store.set b (Cell.Ref d2) := by
              simp [Storage.bind, hfree]
            have hcell : (s.bind b d2).store[b]? = some (Cell.Ref d2) := by
              rw [hstore]
              exact List.getElem?_set_self h1
            obtain ⟨m, hm⟩ := ht2
            cases hl2 : s.store[d2]? with
            | none =>
              rw [List.getElem?_eq_none_iff] at hl2
              omega
            | some c2 =>
              have hc2p : (s.bind b d2).store[d2]? = some c2 := by
                rw [hstore, List.getElem?_set_ne hne]
                exact hl2
              have hd2d2 : DerefTerm (s.bind b d2) d2 d2 := by
                cases c2 with
                | Ref r2 =>
                  have hr2 := derefIdxF_terminal hm hl2
                  subst hr2
                  exact ⟨1, by simp [derefIdxF, hc2p]⟩
                | Struct v2 => exact ⟨1, by simp [derefIdxF, hc2p]⟩
                | Funct f2 n2 => exact ⟨1, by simp [derefIdxF, hc2p]⟩
              exact ⟨d2, DerefTerm_step hcell (fun hh => hne hh.symm) hd2d2⟩
          · -- a free, a ≠ d1: its cell survives unless it is d2 in branch 2
            by_cases ha2 : b = d2
            · subst ha2
              by_cases hf1 : s.isFreeAt d1
              · -- branch 1: cell at b = d2 unchanged, still free
                have hstore : (s.bind d1 b).store = s.store.set d1 (Cell.Ref b) := by
                  simp [Storage.bind, hf1]
                have hcell : (s.bind d1 b).store[b]? = some (Cell.Ref b) := by
                  rw [hstore, List.getElem?_set_ne (fun hh => ha1 hh.symm)]
                  exact hl
                exact ⟨b, 1, by simp [derefIdxF, hcell]⟩
              · -- branch 2: cell at d2 becomes Ref d1; d1 is an unchanged terminal
                have hfree := isFreeAt_of_refself hl
                have hstore : (s.bind d1 b).store = s.store.set b (Cell.Ref d1) := by
                  simp [Storage.bind, hf1, hfree]
                have hcell : (s.bind d1 b).store[b]? = some (Cell.Ref d1) := by
                  rw [hstore]
                  exact List.getElem?_set_self h2
                obtain ⟨m, hm⟩ := ht1
                cases hl1 : s.store[d1]? with
                | none =>
                  rw [List.getElem?_eq_none_iff] at hl1
                  omega
                | some c1 =>
                  have hc1p : (s.bind d1 b).store[d1]? = some c1 := by
                    rw [hstore, List.getElem?_set_ne (fun hh => hne hh.symm)]
                    exact hl1
                  have hd1d1 : DerefTerm (s.bind d1 b) d1 d1 := by
                    cases c1 with
                    | Ref r1 =>
                      have hr1 := derefIdxF_terminal hm hl1
                      subst hr1
                      exact ⟨1, by simp [derefIdxF, hc1p]⟩
                    | Struct v1 => exact ⟨1, by simp [derefIdxF, hc1p]⟩
                    | Funct f1 n1 => exact ⟨1, by simp [derefIdxF, hc1p]⟩
                  exact ⟨d1, DerefTerm_step hcell hne hd1d1⟩
            · -- a free, a ∉ {d1, d2}: cell unchanged
              have hcell : (s.bind d1 d2).store[b]? = some (Cell.Ref b) := by
                by_cases hf1 : s.isFreeAt d1
                · rw [show (s.bind d1 d2).store = s.store.set d1 (Cell.Ref d2) by
                    simp [Storage.bind, hf1]]
                  rw [List.getElem?_set_ne (fun hh => ha1 hh.symm)]
                  exact hl
                · by_cases hf2 : s.isFreeAt d2
                  · rw [show (s.bind d1 d2).store = s.store.set d2 (Cell.Ref d1) by
                      simp [Storage.bind, hf1, hf2]]
                    rw [List.getElem?_set_ne (fun hh => ha2 hh.symm)]
                    exact hl
                  · rw [show s.bind d1 d2 = s by simp [Storage.bind, hf1, hf2]]
                    exact hl
              exact ⟨b, 1, by simp [derefIdxF, hcell]⟩
        · -- non-self reference: the cell persists, recurse on the target
          simp [derefIdxF, hl, hb] at h
          have hpers := hext.2 a (Cell.Ref b) hl (by intro hcc; exact hb (by injection hcc))
          obtain ⟨t', ht'⟩ := ih h
          exact ⟨t', DerefTerm_step hpers hb ht'⟩
      | Struct v =>
        have hpers := hext.2 a (Cell.Struct v) hl (by intro hcc; exact Cell.noConfusion hcc)
        exact ⟨a, 1, by simp [derefIdxF, hpers]⟩
      | Funct f m =>
        have hpers := hext.2 a (Cell.Funct f m) hl (by intro hcc; exact Cell.noConfusion hcc)
        exact ⟨a, 1, by simp [derefIdxF, hpers]⟩

/-- `bind` at two distinct in-bounds terminals preserves total
dereferencing. -/
theorem bind_preserves_WF {s : Storage} {d1 d2 : Nat} (hne : d1 ≠ d2)
    (h1 : d1 < s.store.length) (h2 : d2 < s.store.length)
    (ht1 : DerefTerm s d1 d1) (ht2 : DerefTerm s d2 d2) (hwf : WFStore s) :
    WFStore (s.bind d1 d2) := by
  intro a ha
  have hlen : (s.bind d1 d2).store.length = s.store.length := (bind_extends s d1 d2).1
  obtain ⟨t, n, hn⟩ := hwf a (by omega)
  exact bind_preserves_deref hne h1 h2 ht1 ht2 hn

/-- A successful run of the unification loop preserves total
dereferencing. -/
theorem unifyF_true_WF :
    ∀ (fuel : Nat) (s : Storage) (stack : List (Nat × Nat)) (s' : Storage),
      WFStore s → unifyF fuel s stack = some (true, s') → WFStore s' := by
  intro fuel
  induction fuel with
  | zero => intro s stack s' _ h; simp [unifyF] at h
  | succ k ih =>
    intro s stack s' hwf h
    cases stack with
    | nil =>
      simp [unifyF] at h
      rw [← h]
      exact hwf
    | cons p pld =>
      obtain ⟨p1, p2⟩ := p
      rcases unifyF_true_cons_inv h with
        ⟨d, hd1, hd2, htail⟩ |
        ⟨d1, d2, hne, hd1, hd2, hcells, htail⟩ |
        ⟨d1, d2, v1, v2, f, nn, hne, hd1, hd2, hc1, hc2, hf1, hf2, htail⟩
      · exact ih s pld s' hwf htail
      · have hl1 : d1 < s.store.length := by
          obtain ⟨c, hc⟩ := derefIdxF_inBounds (s := s) hd1
          exact getElem?_some_lt hc
        have hl2 : d2 < s.store.length := by
          obtain ⟨c, hc⟩ := derefIdxF_inBounds (s := s) hd2
          exact getElem?_some_lt hc
        exact ih _ pld s'
          (bind_preserves_WF hne hl1 hl2 (DerefTerm_self ⟨_, hd1⟩) (DerefTerm_self ⟨_, hd2⟩) hwf)
          htail
      · exact ih s _ s' hwf htail

/-- The argument-slot pairs pushed for matching structures. -/
theorem pushPairs_mem {v1 v2 n i : Nat} (h1 : 1 ≤ i) (h2 : i ≤ n) :
    (v1 + i, v2 + i) ∈ pushPairs v1 v2 n := by
  rw [pushPairs]
  have : (n - i) < n := by omega
  refine List.mem_map.mpr ⟨n - i, List.mem_range.mpr this, ?_⟩
  have e1 : v1 + n - (n - i) = v1 + i := by omega
  have e2 : v2 + n - (n - i) = v2 + i := by omega
  rw [e1, e2]

/-- Unification soundness over the whole work stack: when the loop drains
successfully, every pair that was on the stack denotes equal terms in the
final store. -/
theorem unifyF_true_sound :
    ∀ (fuel : Nat) (s : Storage) (stack : List (Nat × Nat)) (s' : Storage),
      WFStore s → unifyF fuel s stack = some (true, s') →
      ∀ p ∈ stack, CellEq s' p.1 p.2 := by
  intro fuel
  induction fuel with
  | zero => intro s stack s' _ h; simp [unifyF] at h
  | succ k ih =>
    intro s stack s' hwf h
    cases stack with
    | nil => intro p hp; exact absurd hp (List.not_mem_nil p)
    | cons q pld =>
      obtain ⟨p1, p2⟩ := q
      rcases unifyF_true_cons_inv h with
        ⟨d, hd1, hd2, htail⟩ |
        ⟨d1, d2, hne, hd1, hd2, hcells, htail⟩ |
        ⟨d1, d2, v1, v2, f, nn, hne, hd1, hd2, hc1, hc2, hf1, hf2, htail⟩
      · -- both sides already share the terminal d
        have hext := unifyF_extends k s pld true s' htail
        have hwf' := unifyF_true_WF k s pld s' hwf htail
        have hdl : d < s.store.length := by
          obtain ⟨c, hc⟩ := derefIdxF_inBounds (s := s) hd1
          exact getElem?_some_lt hc
        intro p hp
        rcases List.mem_cons.mp hp with hph | hpt
        · subst hph
          obtain ⟨u, hu⟩ := hwf' d (by rw [hext.1]; exact hdl)
          exact CellEq.refl p1 p2 u (deref_extends hext hd1 hu) (deref_extends hext hd2 hu)
        · exact ih s pld s' hwf htail p hpt
      · -- one side is a free variable: bind, then continue
        have hl1 : d1 < s.store.length := by
          obtain ⟨c, hc⟩ := derefIdxF_inBounds (s := s) hd1
          exact getElem?_some_lt hc
        have hl2 : d2 < s.store.length := by
          obtain ⟨c, hc⟩ := derefIdxF_inBounds (s := s) hd2
          exact getElem?_some_lt hc
        have htd1 : DerefTerm s d1 d1 := DerefTerm_self ⟨_, hd1⟩
        have htd2 : DerefTerm s d2 d2 := DerefTerm_self ⟨_, hd2⟩
        have hwf1 : WFStore (s.bind d1 d2) := bind_preserves_WF hne hl1 hl2 htd1 htd2 hwf
        have hext1 : Extends (s.bind d1 d2) s' := unifyF_extends k _ pld true s' htail
        have hext : Extends s s' := Extends_trans (bind_extends s d1 d2) hext1
        have hwf' : WFStore s' := unifyF_true_WF k _ pld s' hwf1 htail
        intro p hp
        rcases List.mem_cons.mp hp with hph | hpt
        · subst hph
          rcases hcells with ⟨r, hr⟩ | ⟨⟨c1, hcc1, hnr⟩, ⟨r, hr⟩⟩
          · -- store[d1] is a (self-referential) free variable: branch 1 of bind
            have hrd := derefIdxF_terminal hd1 hr
            rw [hrd] at hr
            have hfree := isFreeAt_of_refself hr
            have hstore : (s.bind d1 d2).store = s.store.set d1 (Cell.Ref d2) := by
              simp [Storage.bind, hfree]
            have hcell1 : (s.bind d1 d2).store[d1]? = some (Cell.Ref d2) := by
              rw [hstore]
              exact List.getElem?_set_self hl1
            have hcell' : s'.store[d1]? = some (Cell.Ref d2) := by
              refine hext1.2 d1 (Cell.Ref d2) hcell1 ?_
              intro hcc
              injection hcc with hh
              exact hne hh.symm
            obtain ⟨u, hu⟩ := hwf' d2 (by rw [hext.1]; exact hl2)
            have hd1u : DerefTerm s' d1 u := DerefTerm_step hcell' (fun hh => hne hh.symm) hu
            exact CellEq.refl p1 p2 u (deref_extends hext hd1 hd1u) (deref_extends hext hd2 hu)
          · -- store[d2] is the free variable and store[d1] is not: branch 2 of bind
            have hrd := derefIdxF_terminal hd2 hr
            rw [hrd] at hr
            have hfree2 := isFreeAt_of_refself hr
            have hfree1 : s.isFreeAt d1 = false := isFreeAt_false_of_nonref hcc1 hnr
            have hstore : (s.bind d1 d2).store = s.store.set d2 (Cell.Ref d1) := by
              simp [Storage.bind, hfree1, hfree2]
            have hcell1 : (s.bind d1 d2).store[d2]? = some (Cell.Ref d1) := by
              rw [hstore]
              exact List.getElem?_set_self hl2
            have hcell' : s'.store[d2]? = some (Cell.Ref d1) := by
              refine hext1.2 d2 (Cell.Ref d1) hcell1 ?_
              intro hcc
              injection hcc with hh
              exact hne hh
            obtain ⟨u, hu⟩ := hwf' d1 (by rw [hext.1]; exact hl1)
            have hd2u : DerefTerm s' d2 u := DerefTerm_step hcell' hne hu
            exact CellEq.refl p1 p2 u (deref_extends hext hd1 hu) (deref_extends hext hd2 hd2u)
        · exact ih _ pld s' hwf1 htail p hpt
      · -- matching structures: the argument pairs were pushed and processed
        have hext : Extends s s' := unifyF_extends k s _ true s' htail
        have hwf' : WFStore s' := unifyF_true_WF k s _ s' hwf htail
        intro p hp
        rcases List.mem_cons.mp hp with hph | hpt
        · subst hph
          have hs1 : s'.store[d1]? = some (Cell.Struct v1) :=
            hext.2 d1 _ hc1 (fun hcc => Cell.noConfusion hcc)
          have hs2 : s'.store[d2]? = some (Cell.Struct v2) :=
            hext.2 d2 _ hc2 (fun hcc => Cell.noConfusion hcc)
          have hfn1 : s'.store[v1]? = some (Cell.Funct f nn) :=
            hext.2 v1 _ hf1 (fun hcc => Cell.noConfusion hcc)
          have hfn2 : s'.store[v2]? = some (Cell.Funct f nn) :=
            hext.2 v2 _ hf2 (fun hcc => Cell.noConfusion hcc)
          have htd1' : DerefTerm s' d1 d1 := ⟨1, by simp [derefIdxF, hs1]⟩
          have htd2' : DerefTerm s' d2 d2 := ⟨1, by simp [derefIdxF, hs2]⟩
          refine CellEq.struct p1 p2 d1 d2 v1 v2 f nn
            (deref_extends hext hd1 htd1') (deref_extends hext hd2 htd2') hs1 hs2 hfn1 hfn2 ?_
          intro i hi1 hi2
          exact ih s _ s' hwf htail (v1 + i, v2 + i)
            (List.mem_append.mpr (Or.inl (pushPairs_mem hi1 hi2)))
        · exact ih s _ s' hwf htail p (List.mem_append.mpr (Or.inr hpt))

/-- C4, counterexample: successful unification does NOT make `deref(a1)`
and `deref(a2)` equal cells.  Unifying the two matching constant structures
of `csConst` succeeds without touching the store, yet address 0
dereferences to the cell `Struct 1` and address 2 to the cell `Struct 3`. -/
theorem C4_counterexample :
    unifyF 5 csConst [(0, 2)] = some (true, csConst) ∧
    derefIdxF 5 csConst 0 = some (some 0) ∧ derefIdxF 5 csConst 2 = some (some 2) ∧
    csConst.store[0]? = some (Cell.Struct 1) ∧ csConst.store[2]? = some (Cell.Struct 3) ∧
    Cell.Struct 1 ≠ Cell.Struct 3 := by
  decide

/-- C4, amended: in a well-formed store (every address dereferences), if
`unify(a1, a2)` returns true (at any fuel; divergence never returns true),
then in the resulting store `a1` and `a2` denote equal terms: either both
dereference to the same terminal address (so the dereferenced cells
coincide), or both dereference to structure cells whose functors agree and
whose argument slots are recursively equal (`CellEq`). -/
theorem C4_unify_sound (fuel : Nat) (s : Storage) (a1 a2 : Nat) (s' : Storage)
    (hwf : WFStore s) (h : unifyF fuel s [(a1, a2)] = some (true, s')) :
    CellEq s' a1 a2 :=
  unifyF_true_sound fuel s [(a1, a2)] s' hwf h (a1, a2) (List.mem_singleton.mpr rfl)

/-- C4, witness for the amended theorem at a concrete input: unifying the
two free variables of `csTwoVars` binds the first to the second, and the
two addresses denote equal terms afterwards. -/
theorem C4_unify_sound_witness : CellEq (Storage.mk [Cell.Ref 1, Cell.Ref 1] 0) 0 1 := by
  refine C4_unify_sound 5 csTwoVars 0 1 (Storage.mk [Cell.Ref 1, Cell.Ref 1] 0) ?_ (by decide)
  intro a ha
  have ha2 : a < 2 := by simpa [csTwoVars] using ha
  interval_cases a
  · exact ⟨0, 1, by decide⟩
  · exact ⟨1, 1, by decide⟩

theorem encodeOp_length_advance (op : Operation) : (encodeOp op).length = op.advance := by
  cases op <;> rfl

theorem encodeOps_append (l1 l2 : List Operation) :
    encodeOps (l1 ++ l2) = encodeOps l1 ++ encodeOps l2 := by
  induction l1 with
  | nil => rfl
  | cons op l ih => simp [encodeOps, ih]

/-- Decoding is invariant under translation past a prefix of whole words. -/
theorem operation_shift (ws tail : List Nat) (x i : Nat) :
    (Program.mk (ws ++ tail) x).operation (ws.length + i) =
    (Program.mk tail x).operation i := by
  have hget : ∀ j : Nat, (ws ++ tail)[ws.length + j]? = tail[j]? := by
    intro j
    rw [List.getElem?_append_right (by omega)]
    congr 1
    omega
  have hgetD : ∀ j : Nat, (ws ++ tail).getD (ws.length + j) 0 = tail.getD j 0 := by
    intro j
    rw [List.getD_eq_getElem?_getD, List.getD_eq_getElem?_getD, hget]
  rw [Program.operation, Program.operation, hget]
  cases htw : tail[i]? with
  | none => rfl
  | some w =>
    simp only [Program.put_structure, Program.set_variable, Program.set_value,
      Program.get_structure, Program.unify_variable, Program.unify_value,
      List.length_append,
      show ws.length + i + 3 = ws.length + (i + 3) by omega,
      show ws.length + i + 1 = ws.length + (i + 1) by omega,
      show ws.length + i + 2 = ws.length + (i + 2) by omega,
      hgetD, Nat.add_lt_add_iff_left]

/-- Decoding at offset 0 of an encoded instruction recovers it, for any
continuation of the word stream. -/
theorem operation_encode_head (op : Operation) (tail : List Nat) (x : Nat) :
    (Program.mk (encodeOp op ++ tail) x).operation 0 = some op := by
  cases op with
  | PutStructure ident arity xreg =>
    simp [Program.operation, encodeOp, Program.put_structure, List.getD_eq_getElem?_getD]
  | SetVariable xreg =>
    simp [Program.operation, encodeOp, Program.set_variable, List.getD_eq_getElem?_getD]
  | SetValue xreg =>
    simp [Program.operation, encodeOp, Program.set_value, List.getD_eq_getElem?_getD]
  | GetStructure ident arity xreg =>
    simp [Program.operation, encodeOp, Program.get_structure, List.getD_eq_getElem?_getD]
  | UnifyVariable xreg =>
    simp [Program.operation, encodeOp, Program.unify_variable, List.getD_eq_getElem?_getD]
  | UnifyValue xreg =>
    simp [Program.operation, encodeOp, Program.unify_value, List.getD_eq_getElem?_getD]

/-- Sequencing of decoded-instruction execution. -/
theorem execList_append (df : Nat) (l1 l2 : List Operation) (m : Machine) :
    execList df (l1 ++ l2) m =
      match execList df l1 m with
      | none => none
      | some m1 => execList df l2 m1 := by
  induction l1 generalizing m with
  | nil => rfl
  | cons op l ih =>
    rw [List.cons_append, execList, execList]
    cases hperf : m.perform_op df op with
    | none => rfl
    | some r =>
      obtain ⟨m1, b⟩ := r
      exact ih m1

/-- Bridge between the word-level run loop and decoded-instruction
execution: running a program whose word stream is a prefix `pre` (already
behind the instruction pointer) followed by the encoding of `ops` performs
exactly the instructions of `ops` in order. -/
theorem runF_encode (df : Nat) (x : Nat) :
    ∀ (ops : List Operation) (fuel : Nat) (pre : List Nat) (m : Machine),
      m.preg = pre.length → ops.length < fuel →
      Machine.runF df fuel m (Program.mk (pre ++ encodeOps ops) x) = execList df ops m := by
  intro ops
  induction ops with
  | nil =>
    intro fuel pre m hpreg hfuel
    obtain ⟨k, rfl⟩ : ∃ k, fuel = k + 1 := ⟨fuel - 1, by omega⟩
    rw [Machine.runF]
    have hdec : (Program.mk (pre ++ encodeOps []) x).operation m.preg = none := by
      rw [Program.operation, hpreg]
      rw [show encodeOps [] = [] from rfl, List.append_nil,
        List.getElem?_eq_none (le_refl pre.length)]
    rw [hdec]
    rfl
  | cons op rest ih =>
    intro fuel pre m hpreg hfuel
    obtain ⟨k, rfl⟩ : ∃ k, fuel = k + 1 := ⟨fuel - 1, by omega⟩
    rw [Machine.runF]
    have hdec : (Program.mk (pre ++ encodeOps (op :: rest)) x).operation m.preg = some op := by
      rw [hpreg, show encodeOps (op :: rest) = encodeOp op ++ encodeOps rest from rfl,
        show pre.length = pre.length + 0 by omega,
        show pre ++ (encodeOp op ++ encodeOps rest) = pre ++ (encodeOp op ++ encodeOps rest)
          from rfl, operation_shift]
      exact operation_encode_head op (encodeOps rest) x
    rw [hdec]
    dsimp only
    rw [execList]
    cases hperf : m.perform_op df op with
    | none => rfl
    | some r =>
      obtain ⟨m1, b⟩ := r
      dsimp only
      have hpreg1 : m1.preg = (pre ++ encodeOp op).length := by
        rw [perform_op_preg hperf, hpreg]
        simp [encodeOp_length_advance]
      have hassoc : pre ++ encodeOps (op :: rest) = (pre ++ encodeOp op) ++ encodeOps rest := by
        rw [show encodeOps (op :: rest) = encodeOp op ++ encodeOps rest from rfl,
          List.append_assoc]
      rw [hassoc]
      exact ih k (pre ++ encodeOp op) m1 hpreg1 (by simp at hfuel; omega)

mutual
/-- Register bookkeeping of the instruction-level compiler image: the next
free register is monotone, and the root lies in the allocated window. -/
theorem opsT_next : ∀ (t : GTerm) (next : Nat),
    next ≤ (opsT t next).2.2 ∧ next ≤ (opsT t next).2.1 ∧
    (opsT t next).2.1 < (opsT t next).2.2
  | GTerm.mk ident args, next => by
    rw [opsT]
    rcases hop : opsL args next with ⟨lops, rs, next1⟩
    dsimp only
    have hl := opsL_next args next
    rw [hop] at hl
    dsimp only at hl
    omega
/-- Register bookkeeping for argument lists: the next free register is
monotone and every emitted root lies in the allocated window. -/
theorem opsL_next : ∀ (ts : GTermList) (next : Nat),
    next ≤ (opsL ts next).2.2 ∧
    ∀ r ∈ (opsL ts next).2.1, next ≤ r ∧ r < (opsL ts next).2.2
  | GTermList.nil, next => by
    rw [opsL]
    exact ⟨le_refl next, by intro r hr; exact absurd hr (List.not_mem_nil r)⟩
  | GTermList.cons t ts, next => by
    rw [opsL]
    rcases hop1 : opsT t next with ⟨ops1, r1, next1⟩
    dsimp only
    rcases hop2 : opsL ts next1 with ⟨ops2, rs, next2⟩
    dsimp only
    have h1 := opsT_next t next
    rw [hop1] at h1
    dsimp only at h1
    have h2 := opsL_next ts next1
    rw [hop2] at h2
    dsimp only at h2
    constructor
    · omega
    · intro r hr
      rcases List.mem_cons.mp hr with hh | hh
      · subst hh
        omega
      · have := h2.2 r hh
        omega
end

/-- The compiler emits one root register per argument. -/
theorem opsL_length : ∀ (ts : GTermList) (next : Nat),
    (opsL ts next).2.1.length = ts.length
  | GTermList.nil, next => by rw [opsL]; rfl
  | GTermList.cons t ts, next => by
    rw [opsL]
    rcases hop1 : opsT t next with ⟨ops1, r1, next1⟩
    dsimp only
    rcases hop2 : opsL ts next1 with ⟨ops2, rs, next2⟩
    dsimp only
    have := opsL_length ts next1
    rw [hop2] at this
    dsimp only at this
    rw [GTermList.length, List.length_cons]
    omega

/-- The `SetValue` emission loop of `QueryBuilder::structure`: the word
stream grows by the encodings, and `xregs` is unchanged when every
referenced register is already covered. -/
theorem foldl_set_value_words : ∀ (rs : List Nat) (pb : ProgramBuilder),
    (rs.foldl (fun acc r => acc.set_value r) pb).program =
      pb.program ++ encodeOps (rs.map Operation.SetValue) ∧
    ((∀ r ∈ rs, r + 1 ≤ pb.xregs) →
      (rs.foldl (fun acc r => acc.set_value r) pb).xregs = pb.xregs) := by
  intro rs
  induction rs with
  | nil => intro pb; exact ⟨by simp [encodeOps], fun _ => rfl⟩
  | cons r rs ih =>
    intro pb
    rw [List.map_cons, List.foldl_cons]
    constructor
    · rw [(ih (pb.set_value r)).1]
      simp [ProgramBuilder.set_value, encodeOps, encodeOp]
    · intro hall
      have hx : max pb.xregs (r + 1) = pb.xregs := by
        have := hall r (List.mem_cons_self r rs)
        omega
      have ih2 := (ih (pb.set_value r)).2 (by
        intro r' hr'
        have := hall r' (List.mem_cons_of_mem r hr')
        simp only [ProgramBuilder.set_value]
        omega)
      rw [ih2]
      simp [ProgramBuilder.set_value, hx]

mutual
/-- The query compiler's builder state is the instruction-level image: the
word stream extends by the encoded instructions, the returned handle is the
instruction-level root, `next_register` advances identically, and (given
the invariant `xregs ≤ next_register`) the recorded `xregs` equals the next
free register. -/
theorem compileTerm_spec : ∀ (t : GTerm) (b : QueryBuilder),
    (compileTerm t b).1.program.program =
      b.program.program ++ encodeOps (opsT t b.next_register).1 ∧
    (compileTerm t b).2 = (opsT t b.next_register).2.1 ∧
    (compileTerm t b).1.next_register = (opsT t b.next_register).2.2 ∧
    (b.program.xregs ≤ b.next_register →
      (compileTerm t b).1.program.xregs = (opsT t b.next_register).2.2)
  | GTerm.mk ident args, b => by
    rw [compileTerm, opsT]
    rcases hopl : opsL args b.next_register with ⟨lops, rso, next1⟩
    dsimp only
    have hargs := compileArgs_spec args b
    rcases hca : compileArgs args b with ⟨b1, rs⟩
    rw [hopl, hca] at hargs
    dsimp only at hargs
    obtain ⟨hw, hrs, hnext, hxinv⟩ := hargs
    have hrootsL := opsL_next args b.next_register
    rw [hopl] at hrootsL
    dsimp only at hrootsL
    have hlenL := opsL_length args b.next_register
    rw [hopl] at hlenL
    dsimp only at hlenL
    subst hrs
    rw [QueryBuilder.structure]
    dsimp only
    have hfold := foldl_set_value_words rs (b1.program.put_structure ident rs.length
      b1.next_register)
    refine ⟨?_, by rw [hnext], by rw [hnext], ?_⟩
    · rw [hfold.1]
      simp only [ProgramBuilder.put_structure]
      rw [hw, hnext]
      rw [encodeOps_append]
      simp [encodeOps, encodeOp, List.append_assoc, hlenL]
    · intro hbx
      have hb1x : b1.program.xregs ≤ b1.next_register := hxinv hbx
      have hput : (b1.program.put_structure ident rs.length b1.next_register).xregs =
          b1.next_register + 1 := by
        simp only [ProgramBuilder.put_structure]
        omega
      have hkeep := hfold.2 (by
        intro r hr
        have := hrootsL.2 r hr
        rw [hput, hnext]
        omega)
      rw [hkeep, hput, hnext]
/-- List version of `compileTerm_spec`, threading the builder through the
argument sequence. -/
theorem compileArgs_spec : ∀ (ts : GTermList) (b : QueryBuilder),
    (compileArgs ts b).1.program.program =
      b.program.program ++ encodeOps (opsL ts b.next_register).1 ∧
    (compileArgs ts b).2 = (opsL ts b.next_register).2.1 ∧
    (compileArgs ts b).1.next_register = (opsL ts b.next_register).2.2 ∧
    (b.program.xregs ≤ b.next_register →
      (compileArgs ts b).1.program.xregs ≤ (compileArgs ts b).1.next_register)
  | GTermList.nil, b => by
    rw [compileArgs, opsL]
    exact ⟨by simp [encodeOps], rfl, rfl, fun h => h⟩
  | GTermList.cons t ts, b => by
    rw [compileArgs, opsL]
    rcases hct : compileTerm t b with ⟨b1, r⟩
    dsimp only
    rcases hopt : opsT t b.next_register with ⟨ops1, r1, next1⟩
    dsimp only
    have hterm := compileTerm_spec t b
    rw [hct, hopt] at hterm
    dsimp only at hterm
    obtain ⟨hw1, hr1, hnext1, hx1⟩ := hterm
    rcases hcl : compileArgs ts b1 with ⟨b2, rs⟩
    dsimp only
    rcases hopl : opsL ts next1 with ⟨ops2, rs2, next2⟩
    dsimp only
    have hlist := compileArgs_spec ts b1
    rw [hcl, hnext1, hopl] at hlist
    dsimp only at hlist
    obtain ⟨hw2, hrs2, hnext2, hx2⟩ := hlist
    refine ⟨?_, by rw [hrs2, hr1], hnext2, ?_⟩
    · rw [hw2, hw1, encodeOps_append, List.append_assoc]
    · intro hbx
      exact hx2 (by rw [hx1 hbx])
end

mutual
/-- Denotation is stable under store evolutions that preserve the heap
segment `[lo, len)` (register writes below `lo` and appends). -/
theorem Reifies_frame {s s' : Storage} {lo : Nat}
    (hag : ∀ j : Nat, lo ≤ j → j < s.store.length → s'.store[j]? = s.store[j]?) :
    ∀ {c : Cell} {t : GTerm}, Reifies s lo c t → Reifies s' lo c t
  | _, _, Reifies.struct a ident args hlo hl hslots =>
    Reifies.struct a ident args hlo
      (by rw [hag a hlo (getElem?_some_lt hl)]; exact hl)
      (ReifiesAt_frame hag (by omega) hslots)
/-- Slot-sequence version of `Reifies_frame`. -/
theorem ReifiesAt_frame {s s' : Storage} {lo : Nat}
    (hag : ∀ j : Nat, lo ≤ j → j < s.store.length → s'.store[j]? = s.store[j]?) :
    ∀ {p : Nat} {args : GTermList}, lo ≤ p → ReifiesAt s lo p args → ReifiesAt s' lo p args
  | p, _, _, ReifiesAt.nil _ => ReifiesAt.nil p
  | p, _, hp, ReifiesAt.cons _ t ts c hl hc hrest =>
    ReifiesAt.cons p t ts c
      (by rw [hag p hp (getElem?_some_lt hl)]; exact hl)
      (Reifies_frame hag hc)
      (ReifiesAt_frame hag (by omega) hrest)
end

/-- A nonempty reified slot sequence lies within the store. -/
theorem ReifiesAt_last {s : Storage} {lo : Nat} :
    ∀ {p : Nat} {args : GTermList}, ReifiesAt s lo p args → 1 ≤ args.length →
      p + args.length ≤ s.store.length
  | p, _, ReifiesAt.cons _ t ts c hl _ hrest, _ => by
    rcases hts : ts with _ | ⟨t2, ts2⟩
    · have := getElem?_some_lt hl
      rw [GTermList.length, GTermList.length]
      omega
    · subst hts
      have htl := ReifiesAt_last hrest (by rw [GTermList.length]; omega)
      rw [GTermList.length]
      omega

mutual
/-- A cell that denotes a ground term reifies to its embedding, for every
sufficiently large fuel. -/
theorem Reifies_buildTerm {s : Storage} {lo : Nat} :
    ∀ {c : Cell} {t : GTerm}, Reifies s lo c t →
      ∃ fuel : Nat, ∀ f : Nat, fuel ≤ f → buildTermF f s c = some (embedT t)
  | _, _, Reifies.struct a ident args hlo hl hslots => by
    rcases hargs : args with _ | ⟨t0, ts0⟩
    · refine ⟨1, ?_⟩
      intro f hf
      obtain ⟨f', rfl⟩ : ∃ f', f = f' + 1 := ⟨f - 1, by omega⟩
      subst hargs
      rw [buildTermF, hl]
      rw [show GTermList.nil.length = 0 from rfl]
      simp [embedT, embedL]
    · subst hargs
      obtain ⟨fs, hfs⟩ := ReifiesAt_buildTerms hslots
      refine ⟨fs + 1, ?_⟩
      intro f hf
      obtain ⟨f', rfl⟩ : ∃ f', f = f' + 1 := ⟨f - 1, by omega⟩
      rw [buildTermF, hl]
      dsimp only
      have hlen1 : 1 ≤ (GTermList.cons t0 ts0).length := by rw [GTermList.length]; omega
      have hbound := ReifiesAt_last hslots hlen1
      rw [if_neg (show ¬((GTermList.cons t0 ts0).length = 0) by rw [GTermList.length]; omega)]
      rw [if_pos (by omega)]
      rw [hfs f' (by omega)]
      rw [embedT]
/-- Slot-sequence version of `Reifies_buildTerm`: the run of cells starting
at `p` reifies to the embedded list. -/
theorem ReifiesAt_buildTerms {s : Storage} {lo : Nat} :
    ∀ {p : Nat} {args : GTermList}, ReifiesAt s lo p args →
      ∃ fuel : Nat, ∀ f : Nat, fuel ≤ f →
        buildTermsF f s
          ((List.range args.length).map fun j => s.store.getD (p + j) Cell.defaultCell) =
        some (embedL args)
  | p, _, ReifiesAt.nil _ => by
    refine ⟨1, ?_⟩
    intro f hf
    obtain ⟨f', rfl⟩ : ∃ f', f = f' + 1 := ⟨f - 1, by omega⟩
    rw [show GTermList.nil.length = 0 from rfl]
    simp [buildTermsF, embedL]
  | p, _, ReifiesAt.cons _ t ts c hl hc hrest => by
    obtain ⟨f1, hf1⟩ := Reifies_buildTerm hc
    obtain ⟨f2, hf2⟩ := ReifiesAt_buildTerms hrest
    refine ⟨max f1 f2 + 1, ?_⟩
    intro f hf
    obtain ⟨f', rfl⟩ : ∃ f', f = f' + 1 := ⟨f - 1, by omega⟩
    rw [show (GTermList.cons t ts).length = ts.length + 1 from rfl]
    rw [List.range_succ_eq_map, List.map_cons, List.map_map]
    have hhead : s.store.getD (p + 0) Cell.defaultCell = c := by
      rw [List.getD_eq_getElem?_getD]
      rw [show p + 0 = p by omega, hl]
      rfl
    rw [hhead]
    have htailmap :
        (List.range ts.length).map ((fun j => s.store.getD (p + j) Cell.defaultCell) ∘ Nat.succ) =
        (List.range ts.length).map fun j => s.store.getD (p + 1 + j) Cell.defaultCell := by
      apply List.map_congr_left
      intro j hj
      simp only [Function.comp]
      congr 1
      omega
    rw [htailmap]
    rw [buildTermsF]
    rw [hf1 f' (by omega), hf2 f' (by omega)]
    rw [embedL]
end

theorem encodeOps_length_ge (ops : List Operation) : ops.length ≤ (encodeOps ops).length := by
  induction ops with
  | nil => simp [encodeOps]
  | cons op rest ih =>
    rw [encodeOps, List.length_cons, List.length_append, encodeOp_length_advance]
    have := advance_ge_two op
    omega

/-- Extract the witnessing cells from a pointwise register/term match. -/
theorem RegsReify_cells {st : Storage} {R : Nat} :
    ∀ {rs : List Nat} {ts : GTermList}, RegsReify st R rs ts →
      ∃ cells : List Cell, RegsHold st rs cells ∧ CellsReify st R cells ts ∧
        cells.length = rs.length := by
  intro rs
  induction rs with
  | nil =>
    intro ts h
    cases ts with
    | nil => exact ⟨[], trivial, trivial, rfl⟩
    | cons t ts => exact False.elim h
  | cons r rs ih =>
    intro ts h
    cases ts with
    | nil => exact False.elim h
    | cons t ts =>
      rw [RegsReify] at h
      obtain ⟨⟨c, hl, hc⟩, hrest⟩ := h
      obtain ⟨cells, h1, h2, h3⟩ := ih hrest
      exact ⟨c :: cells, ⟨hl, h1⟩, ⟨hc, h2⟩, by rw [List.length_cons, List.length_cons, h3]⟩

/-- Register contents survive any store evolution that preserves the
individual register lookups. -/
theorem RegsHold_mono {st st' : Storage} :
    ∀ {rs : List Nat} {cells : List Cell},
      (∀ r c, st.store[r]? = some c → r ∈ rs → st'.store[r]? = some c) →
      RegsHold st rs cells → RegsHold st' rs cells := by
  intro rs
  induction rs with
  | nil =>
    intro cells hpres h
    cases cells with
    | nil => trivial
    | cons c cs => exact False.elim h
  | cons r rs ih =>
    intro cells hpres h
    cases cells with
    | nil => exact False.elim h
    | cons c cs =>
      rw [RegsHold] at h ⊢
      exact ⟨hpres r c h.1 (List.mem_cons_self r rs),
        ih (fun r' c' hl hm => hpres r' c' hl (List.mem_cons_of_mem r hm)) h.2⟩

/-- Pointwise denotation survives heap-preserving store evolution. -/
theorem CellsReify_frame {st st' : Storage} {R : Nat}
    (hag : ∀ j : Nat, R ≤ j → j < st.store.length → st'.store[j]? = st.store[j]?) :
    ∀ {cells : List Cell} {ts : GTermList},
      CellsReify st R cells ts → CellsReify st' R cells ts := by
  intro cells
  induction cells with
  | nil =>
    intro ts h
    cases ts with
    | nil => trivial
    | cons t ts => exact False.elim h
  | cons c cs ih =>
    intro ts h
    cases ts with
    | nil => exact False.elim h
    | cons t ts =>
      rw [CellsReify] at h ⊢
      exact ⟨Reifies_frame hag h.1, ih h.2⟩

/-- Cells appended at the end of the store form a reified slot sequence
starting at the old length. -/
theorem ReifiesAt_of_append {R : Nat} :
    ∀ (ts : GTermList) (cells pre : List Cell) (st : Storage),
      st.store = pre ++ cells → CellsReify st R cells ts →
      ReifiesAt st R pre.length ts
  | GTermList.nil, cells, pre, st, hst, hc => by
    cases cells with
    | nil => exact ReifiesAt.nil pre.length
    | cons c cs => exact False.elim hc
  | GTermList.cons t ts, cells, pre, st, hst, hc => by
    cases cells with
    | nil => exact False.elim hc
    | cons c cs =>
      obtain ⟨hct, hcrest⟩ := hc
      refine ReifiesAt.cons pre.length t ts c ?_ hct ?_
      · rw [hst, List.getElem?_append_right (le_refl pre.length)]
        simp
      · have := ReifiesAt_of_append ts cs (pre ++ [c]) st
          (by rw [hst, List.append_assoc]; rfl) hcrest
        simpa using this

theorem getElem?_append_left_of {l1 l2 : List Cell} {n : Nat} {c : Cell}
    (h : l1[n]? = some c) : (l1 ++ l2)[n]? = some c := by
  rw [List.getElem?_append, if_pos (getElem?_some_lt h)]
  exact h

/-- `PutStructure` step: push the structure pair, write the `Struct` cell
into the register, advance by 4. -/
theorem perform_put (df : Nat) (m : Machine) (ident arity xreg : Nat)
    (h : xreg < m.storage.store.length + 2) :
    m.perform_op df (Operation.PutStructure ident arity xreg) =
      some ({ m with
        storage := { m.storage with store :=
          ((m.storage.store ++ [Cell.Struct (m.storage.store.length + 1),
            Cell.Funct ident arity]).set xreg
            (Cell.Struct (m.storage.store.length + 1))) },
        preg := m.preg + 4 }, true) := by
  rw [Machine.perform_op]
  dsimp only
  rw [Machine.put_structure]
  dsimp only [Storage.push_struct]
  rw [Storage.writeChecked]
  rw [if_pos (by simp; omega)]
  rfl

/-- `SetValue` step: push a copy of the register's cell, advance by 2. -/
theorem perform_set_value (df : Nat) (m : Machine) (xreg : Nat) {c : Cell}
    (h : m.storage.store[xreg]? = some c) :
    m.perform_op df (Operation.SetValue xreg) =
      some ({ m with
        storage := { m.storage with store := (m.storage.store ++ [c]) },
        preg := m.preg + 2 }, true) := by
  rw [Machine.perform_op]
  dsimp only
  rw [Machine.set_value, h]
  rfl

/-- Executing the `SetValue` run of a structure's arguments pushes exactly
the cells the registers hold. -/
theorem exec_set_values (df : Nat) :
    ∀ (rs : List Nat) (cells : List Cell) (m : Machine),
      RegsHold m.storage rs cells →
      execList df (rs.map Operation.SetValue) m =
        some { m with
                storage := { m.storage with store := (m.storage.store ++ cells) },
                preg := m.preg + (encodeOps (rs.map Operation.SetValue)).length } := by
  intro rs
  induction rs with
  | nil =>
    intro cells m h
    cases cells with
    | nil => simp [execList, encodeOps]
    | cons c cs => exact False.elim h
  | cons r rs ih =>
    intro cells m h
    cases cells with
    | nil => exact False.elim h
    | cons c cs =>
      obtain ⟨hl, hrest⟩ := h
      rw [List.map_cons, execList, perform_set_value df m r hl]
      dsimp only
      have hrest2 : RegsHold { m.storage with store := (m.storage.store ++ [c]) } rs cs := by
        refine RegsHold_mono ?_ hrest
        intro r' c' hlc _
        exact getElem?_append_left_of hlc
      rw [ih cs { m with
        storage := { m.storage with store := (m.storage.store ++ [c]) },
        preg := m.preg + 2 } hrest2]
      congr 2
      · rw [List.append_assoc]
        rfl
      · simp [encodeOps, encodeOp_length_advance, Operation.advance]
        omega

mutual
/-- Executing the compiled instruction stream of a ground term from a
machine whose store covers the register window reifies the term at its
root register: only registers in the allocated window `[next, next')` and
the fresh heap change, and the root register ends up holding a cell that
denotes the term. -/
theorem execOps_term : ∀ (t : GTerm) (next df R : Nat) (m : Machine),
    m.storage.regs = R →
    R ≤ m.storage.store.length →
    (opsT t next).2.2 ≤ R →
    ∃ st : Storage,
      execList df (opsT t next).1 m =
        some { m with
          storage := st,
          preg := m.preg + (encodeOps (opsT t next).1).length } ∧
      st.regs = R ∧
      m.storage.store.length ≤ st.store.length ∧
      (∀ i : Nat, i < m.storage.store.length → (i < next ∨ (opsT t next).2.2 ≤ i) →
        st.store[i]? = m.storage.store[i]?) ∧
      (∃ c : Cell, st.store[(opsT t next).2.1]? = some c ∧ Reifies st R c t)
  | GTerm.mk ident args, next, df, R, m => by
    intro hregs hRlen hfit
    rw [opsT] at hfit
    rw [opsT]
    rcases hopl : opsL args next with ⟨lops, rs, next1⟩
    rw [hopl] at hfit
    dsimp only at hfit
    dsimp only
    have hln := opsL_next args next
    rw [hopl] at hln
    dsimp only at hln
    have hlen := opsL_length args next
    rw [hopl] at hlen
    dsimp only at hlen
    have hIH := execOps_args args next df R m hregs hRlen (by rw [hopl]; dsimp only; omega)
    rw [hopl] at hIH
    dsimp only at hIH
    obtain ⟨st1, hexec1, hregs1, hlen1, hpres1, hreify1⟩ := hIH
    obtain ⟨cells, hhold, hcreify, hclen⟩ := RegsReify_cells hreify1
    have hRL1 : R ≤ st1.store.length := le_trans hRlen hlen1
    have hnext1L : next1 < st1.store.length := by omega
    refine ⟨{ st1 with store :=
      (((st1.store ++ [Cell.Struct (st1.store.length + 1),
        Cell.Funct ident rs.length]).set next1
        (Cell.Struct (st1.store.length + 1))) ++ cells) }, ?_, ?_, ?_, ?_, ?_⟩
    · rw [execList_append, hexec1]
      dsimp only
      rw [execList]
      rw [perform_put df { m with
          storage := st1,
          preg := m.preg + (encodeOps lops).length } ident rs.length next1
        (by dsimp only; omega)]
      dsimp only
      have hhold2 : RegsHold ({ m with
          storage := { st1 with store :=
            ((st1.store ++ [Cell.Struct (st1.store.length + 1),
              Cell.Funct ident rs.length]).set next1
              (Cell.Struct (st1.store.length + 1))) },
          preg := m.preg + (encodeOps lops).length + 4 } : Machine).storage rs cells := by
        refine RegsHold_mono ?_ hhold
        intro r' c' hlc hmem
        have hr' := hln.2 r' hmem
        dsimp only
        rw [List.getElem?_set_ne (by omega)]
        exact getElem?_append_left_of hlc
      rw [exec_set_values df rs cells { m with
          storage := { st1 with store :=
            ((st1.store ++ [Cell.Struct (st1.store.length + 1),
              Cell.Funct ident rs.length]).set next1
              (Cell.Struct (st1.store.length + 1))) },
          preg := m.preg + (encodeOps lops).length + 4 } hhold2]
      refine congrArg some ?_
      have hpregeq : m.preg + (encodeOps lops).length + 4 +
          (encodeOps (rs.map Operation.SetValue)).length =
          m.preg + (encodeOps (lops ++ Operation.PutStructure ident rs.length next1 ::
            rs.map Operation.SetValue)).length := by
        rw [encodeOps_append, encodeOps]
        simp [encodeOp_length_advance, Operation.advance]
        omega
      rw [← hpregeq]
    · exact hregs1
    · dsimp only
      rw [List.length_append, List.length_set, List.length_append]
      simp
      omega
    · intro i hi hcond
      dsimp only
      rw [List.getElem?_append, if_pos (by simp; omega)]
      rw [List.getElem?_set_ne (by omega)]
      rw [List.getElem?_append, if_pos (by omega)]
      exact hpres1 i hi (by omega)
    · refine ⟨Cell.Struct (st1.store.length + 1), ?_, ?_⟩
      · dsimp only
        rw [List.getElem?_append, if_pos (by simp; omega)]
        exact List.getElem?_set_self (by simp; omega)
      · refine Reifies.struct (st1.store.length + 1) ident args (by omega) ?_ ?_
        · dsimp only
          rw [List.getElem?_append, if_pos (by simp)]
          rw [List.getElem?_set_ne (by omega)]
          rw [List.getElem?_append_right (by omega)]
          rw [show st1.store.length + 1 - st1.store.length = 1 by omega]
          rw [hlen] at hclen ⊢
          rfl
        · have hagree : ∀ j : Nat, R ≤ j → j < st1.store.length →
              ({ st1 with store :=
                (((st1.store ++ [Cell.Struct (st1.store.length + 1),
                  Cell.Funct ident rs.length]).set next1
                  (Cell.Struct (st1.store.length + 1))) ++ cells) } : Storage).store[j]? =
              st1.store[j]? := by
            intro j hj hjl
            dsimp only
            rw [List.getElem?_append, if_pos (by simp; omega)]
            rw [List.getElem?_set_ne (by omega)]
            rw [List.getElem?_append, if_pos (by omega)]
          have hcre2 := CellsReify_frame hagree hcreify
          have hres := ReifiesAt_of_append args cells
            ((st1.store ++ [Cell.Struct (st1.store.length + 1),
              Cell.Funct ident rs.length]).set next1
              (Cell.Struct (st1.store.length + 1)))
            { st1 with store :=
              (((st1.store ++ [Cell.Struct (st1.store.length + 1),
                Cell.Funct ident rs.length]).set next1
                (Cell.Struct (st1.store.length + 1))) ++ cells) }
            rfl hcre2
          rw [show ((st1.store ++ [Cell.Struct (st1.store.length + 1),
            Cell.Funct ident rs.length]).set next1
            (Cell.Struct (st1.store.length + 1))).length = st1.store.length + 1 + 1
            by simp] at hres
          exact hres
/-- Executing the compiled instruction streams of an argument list leaves
each emitted root register holding a cell denoting the corresponding
term. -/
theorem execOps_args : ∀ (ts : GTermList) (next df R : Nat) (m : Machine),
    m.storage.regs = R →
    R ≤ m.storage.store.length →
    (opsL ts next).2.2 ≤ R →
    ∃ st : Storage,
      execList df (opsL ts next).1 m =
        some { m with
          storage := st,
          preg := m.preg + (encodeOps (opsL ts next).1).length } ∧
      st.regs = R ∧
      m.storage.store.length ≤ st.store.length ∧
      (∀ i : Nat, i < m.storage.store.length → (i < next ∨ (opsL ts next).2.2 ≤ i) →
        st.store[i]? = m.storage.store[i]?) ∧
      RegsReify st R (opsL ts next).2.1 ts
  | GTermList.nil, next, df, R, m => by
    intro hregs hRlen hfit
    rw [opsL]
    dsimp only
    refine ⟨m.storage, ?_, hregs, le_refl _, fun i hi hc => rfl, trivial⟩
    rfl
  | GTermList.cons t ts, next, df, R, m => by
    intro hregs hRlen hfit
    rw [opsL] at hfit
    rw [opsL]
    rcases hop1 : opsT t next with ⟨ops1, r1, next1⟩
    rw [hop1] at hfit
    dsimp only at hfit
    dsimp only
    rcases hop2 : opsL ts next1 with ⟨ops2, rs2, next2⟩
    rw [hop2] at hfit
    dsimp only at hfit
    dsimp only
    have ht := opsT_next t next
    rw [hop1] at ht
    dsimp only at ht
    have hl2 := opsL_next ts next1
    rw [hop2] at hl2
    dsimp only at hl2
    have hIH1 := execOps_term t next df R m hregs hRlen (by rw [hop1]; dsimp only; omega)
    rw [hop1] at hIH1
    dsimp only at hIH1
    obtain ⟨sta, hexeca, hregsa, hlena, hpresa, c, hlc, hreifc⟩ := hIH1
    have hIH2 := execOps_args ts next1 df R { m with
        storage := sta,
        preg := m.preg + (encodeOps ops1).length } hregsa (le_trans hRlen hlena)
      (by rw [hop2]; dsimp only; omega)
    rw [hop2] at hIH2
    dsimp only at hIH2
    obtain ⟨stb, hexecb, hregsb, hlenb, hpresb, hreifyb⟩ := hIH2
    refine ⟨stb, ?_, hregsb, le_trans hlena hlenb, ?_, ?_⟩
    · rw [execList_append, hexeca]
      dsimp only
      rw [hexecb]
      refine congrArg some ?_
      have hpl : m.preg + (encodeOps ops1).length + (encodeOps ops2).length =
          m.preg + (encodeOps (ops1 ++ ops2)).length := by
        rw [encodeOps_append, List.length_append]
        omega
      rw [← hpl]
    · intro i hi hcond
      rw [hpresb i (by omega) (by omega)]
      exact hpresa i hi (by omega)
    · refine ⟨⟨c, ?_, ?_⟩, hreifyb⟩
      · rw [hpresb r1 (by omega) (Or.inl (by omega))]
        exact hlc
      · refine Reifies_frame ?_ hreifc
        intro j hj hjlen
        exact hpresb j (by omega) (Or.inr (by omega))
end

/-- C3: Query round-trip - for every ground term, compiling it with the
QueryCompiler, running the compiled query on a fresh machine with empty
knowledge, and reifying register 0 through the term builder yields exactly
the embedding of the term (structural equality; no variables occur in a
ground term, so renaming is trivial). -/
theorem C3_round_trip (t : GTerm) (df : Nat) :
    ∃ (m3 : Machine) (regsv : List Cell) (fuel : Nat),
      Machine.query df Machine.new (queryOf t) [] = some (m3, regsv) ∧
      ∀ f : Nat, fuel ≤ f → queryResultBuildTerm f m3 regsv 0 = some (embedT t) := by
  have hspec := compileTerm_spec t QueryBuilder.new
  rcases hct : compileTerm t QueryBuilder.new with ⟨b1, r⟩
  rw [hct] at hspec
  rcases hops : opsT t 1 with ⟨ops, root, next1⟩
  rw [show QueryBuilder.new.next_register = 1 from rfl, hops] at hspec
  dsimp only at hspec
  obtain ⟨hw, hr, hnextr, hx⟩ := hspec
  have hxr : b1.program.xregs = next1 := hx (by norm_num [QueryBuilder.new, ProgramBuilder.empty])
  have hw2 : b1.program.program = encodeOps ops := by rw [hw]; rfl
  have hb := opsT_next t 1
  rw [hops] at hb
  dsimp only at hb
  subst hr
  have hq : queryOf t =
      { program := { program := encodeOps ops, xregs := next1 }, top_level := r } := by
    rw [queryOf, hct]
    dsimp only [QueryBuilder.buildQuery, ProgramBuilder.build]
    rw [hw2, hxr]
  have hstore0 : (Storage.new.reset next1).store = List.replicate next1 Cell.defaultCell := by
    rw [Storage.reset]
    simp [Storage.new]
  have hlen0 : (Storage.new.reset next1).store.length = next1 := by rw [hstore0]; simp
  have hexec := execOps_term t 1 df next1
    { storage := Storage.new.reset next1, preg := 0, sreg := 0,
      unification_state := UnificationState.Read } rfl (le_of_eq hlen0.symm)
    (by rw [hops])
  rw [hops] at hexec
  dsimp only at hexec
  obtain ⟨st1, hexec1, hregs1, hlen1, hpres1, c, hlc, hreifc⟩ := hexec
  have hlenst1 : next1 ≤ st1.store.length := by rw [hlen0] at hlen1; exact hlen1
  have hbridge := runF_encode df next1 ops ((encodeOps ops).length + 1) []
    { storage := Storage.new.reset next1, preg := 0, sreg := 0,
      unification_state := UnificationState.Read } rfl
    (by have := encodeOps_length_ge ops; omega)
  have hrun : Machine.run df
      { storage := Storage.new.reset next1, preg := 0, sreg := 0,
        unification_state := UnificationState.Read }
      { program := encodeOps ops, xregs := next1 } =
      execList df ops
      { storage := Storage.new.reset next1, preg := 0, sreg := 0,
        unification_state := UnificationState.Read } := by
    rw [Machine.run]
    exact hbridge
  have hrunS := hrun.trans hexec1
  have hag : ∀ j : Nat, next1 ≤ j → j < st1.store.length →
      (({ st1 with store := st1.store.set 0 c } : Storage)).store[j]? = st1.store[j]? := by
    intro j hj hjl
    dsimp only
    exact List.getElem?_set_ne (by omega)
  have hreif2 : Reifies { st1 with store := st1.store.set 0 c } next1 c t :=
    Reifies_frame hag hreifc
  obtain ⟨fuel, hfuel⟩ := Reifies_buildTerm hreif2
  refine ⟨{ storage := { st1 with store := st1.store.set 0 c },
            preg := 0 + (encodeOps ops).length, sreg := 0,
            unification_state := UnificationState.Read },
    ((({ st1 with store := st1.store.set 0 c } : Storage)).store.take st1.regs).take next1,
    fuel, ?_, ?_⟩
  · rw [hq, Machine.query]
    dsimp only [Machine.new]
    rw [show max (Program.x_registers { program := encodeOps ops, xregs := next1 })
        (knowledgeXRegisters []) = next1 from by
      simp [Program.x_registers, knowledgeXRegisters]]
    rw [hrunS]
    dsimp only
    rw [if_pos (show r ≠ 0 by omega)]
    rw [hlc]
    dsimp only
    rw [Storage.writeChecked]
    rw [if_pos (show 0 < st1.store.length by omega)]
    dsimp only
    rw [show List.take 1 ([] : List Program) = [] from rfl, Machine.runFacts]
    dsimp only [Storage.registers, Program.x_registers]
  · intro f hf
    rw [queryResultBuildTerm]
    have h0 : (((({ st1 with store := st1.store.set 0 c } : Storage)).store.take
        st1.regs).take next1)[0]? = some c := by
      simp only [List.getElem?_take]
      rw [if_pos (by omega), if_pos (by omega)]
      exact List.getElem?_set_self (by omega)
    rw [h0]
    dsimp only
    exact hfuel f hf
